import Mathlib

/-!
Verification development for the featureflow repository (a streaming
feature-extraction and caching runtime).  Python sources are shallowly
embedded: Python strings become `String` or `List Char`, byte chunks become
`List Nat`, `id(obj)` based sets become duplicate-free lists of node keys,
`collections.deque` becomes a `List` whose head is the left end, and
fallible code returns `Except PyExc`.
-/

namespace Featureflow

/-- Python exception values that the embedded code can raise. -/
inductive PyExc where
  | typeError
  | keyError
  | valueError
  | attributeError
  | notEnoughData
  | userError (code : Nat)
  | outOfFuel
  deriving DecidableEq, Repr

/-- A chunk of data flowing through the extraction graph (Python objects /
byte strings are abstracted as lists of naturals). -/
abbrev Data := List Nat

/-! ## Key builder (data.py, StringDelimitedKeyBuilder)

Python strings are modelled as `List Char`; `str.join` and `str.split`
on a single-character separator are translated element-wise. -/

/-- `sep.join(parts)` for a one-character separator
(data.py line 71, `self._seperator.join(str(x) for x in args)`),
with the parts already strings so `str` is the identity. -/
def sdkbBuild (sep : Char) (parts : List (List Char)) : List Char :=
  List.intercalate [sep] parts

/-- `composed.split(sep)` for a one-character separator
(data.py line 74): splitting the empty string yields one empty part,
and each occurrence of `sep` starts a new part. -/
def pySplit (sep : Char) : List Char → List (List Char)
  | [] => [[]]
  | c :: cs =>
      let rest := pySplit sep cs
      if c = sep then
        [] :: rest
      else
        match rest with
        | [] => [[c]]
        | p :: ps => (c :: p) :: ps

/-- `decompose` of the default key builder (data.py lines 73-74). -/
def sdkbDecompose (sep : Char) (composed : List Char) : List (List Char) :=
  pySplit sep composed

theorem pySplit_ne_nil (sep : Char) (l : List Char) : pySplit sep l ≠ [] := by
  induction l with
  | nil => simp [pySplit]
  | cons c cs ih =>
      simp only [pySplit]
      by_cases h : c = sep
      · simp [h]
      · simp only [if_neg h]
        cases hr : pySplit sep cs with
        | nil => simp
        | cons p ps => simp

theorem pySplit_sepFree (sep : Char) (p : List Char) (hp : sep ∉ p) :
    pySplit sep p = [p] := by
  induction p with
  | nil => rfl
  | cons c cs ih =>
      simp only [List.mem_cons, not_or] at hp
      have hc : c ≠ sep := fun h => hp.1 h.symm
      simp only [pySplit, if_neg hc, ih hp.2]

theorem pySplit_append_sep (sep : Char) (p rest : List Char) (hp : sep ∉ p) :
    pySplit sep (p ++ sep :: rest) = p :: pySplit sep rest := by
  induction p with
  | nil => simp [pySplit]
  | cons c cs ih =>
      simp only [List.mem_cons, not_or] at hp
      have hc : c ≠ sep := fun h => hp.1 h.symm
      have ihr := ih hp.2
      simp only [List.cons_append, pySplit, List.append_eq, if_neg hc, ihr]

/-- Round trip of the default key builder on separator-free parts. -/
theorem sdkb_roundtrip (sep : Char) (parts : List (List Char))
    (hne : parts ≠ []) (hfree : ∀ p ∈ parts, sep ∉ p) :
    sdkbDecompose sep (sdkbBuild sep parts) = parts := by
  induction parts with
  | nil => cases hne rfl
  | cons p ps ih =>
      cases ps with
      | nil =>
          simp only [sdkbBuild, List.intercalate, List.intersperse]
          simpa [sdkbDecompose, List.intercalate] using
            pySplit_sepFree sep p (hfree p (by simp))
      | cons q qs =>
          have hp : sep ∉ p := hfree p (by simp)
          have hrest : ∀ r ∈ q :: qs, sep ∉ r := fun r hr =>
            hfree r (List.mem_cons_of_mem p hr)
          have ihr := ih (by simp) hrest
          have hbuild : sdkbBuild sep (p :: q :: qs) =
              p ++ sep :: sdkbBuild sep (q :: qs) := by
            simp [sdkbBuild, List.intercalate, List.intersperse]
          simp only [sdkbDecompose, hbuild, pySplit_append_sep sep _ _ hp]
          exact congrArg (p :: ·) ihr

/-! ## Feature.can_compute and the fetch decision (feature.py) -/

/-- The statically declared feature DAG, unfolded to a tree: a feature has a
key, a store flag and dependencies (feature.py `Feature` with `needs`). -/
inductive FTree where
  | mk (key : String) (store : Bool) (needs : List FTree)

def FTree.key : FTree → String
  | .mk k _ _ => k

def FTree.store : FTree → Bool
  | .mk _ s _ => s

def FTree.needs : FTree → List FTree
  | .mk _ _ ns => ns

/-- `Feature._can_compute` (feature.py lines 108-119): true if stored,
false for an unstored root, otherwise all dependencies can compute. -/
def canCompute : FTree → Bool
  | .mk _ store needs =>
      if store then true
      else if needs.isEmpty then false
      else needs.attach.all fun n => canCompute n.1
decreasing_by
  have h := List.sizeOf_lt_of_mem n.2
  simp only [FTree.mk.sizeOf_spec]
  omega

/-- Outcome of `Feature.__call__` (feature.py lines 121-135) up to the point
where the partial graph is built: a database hit returns the decoded value, a
miss raises `AttributeError` (NotComputable) when the feature cannot be
computed, and otherwise proceeds to computation. -/
inductive CallOutcome where
  | hit
  | notComputable
  | compute
  deriving DecidableEq, Repr

/-- `Feature.__call__` control flow for a given document: `stored` says
whether the composed key is present in the associated database. -/
def featureCall (stored : Bool) (f : FTree) : CallOutcome :=
  if stored then .hit
  else if ¬ canCompute f then .notComputable
  else .compute

/-! ## The scheduler work queue (extractor.py `_push` and the drain loop)

A `collections.deque` is modelled as a list whose head is the left end:
`appendleft` conses, `pop` removes the rightmost (= last) element. -/

/-- An envelope placed on the work queue: the producing node key and the
message (a `process` delivery carrying optional data, or a finish signal). -/
inductive EMsg where
  | procMsg (data : Option Data)
  | finishMsg
  deriving DecidableEq, Repr

structure Envelope where
  pusher : String
  msg : EMsg
  deriving DecidableEq, Repr

/-- `Node._push` queue discipline (extractor.py lines 115-119):
`queue.appendleft(...)` adds at the left end. -/
def pushEnv (e : Envelope) (q : List Envelope) : List Envelope :=
  e :: q

/-- The drain loop removal (extractor.py line 236): `queue.pop()` removes the
rightmost element. -/
def drainPopped (q : List Envelope) : Option Envelope :=
  q.getLast?

/-- The queue remaining after a drain-loop removal. -/
def drainRest (q : List Envelope) : List Envelope :=
  q.dropLast

/-! ## Node dependency tracking (extractor.py lines 104-135)

`id(...)`-keyed Python sets are modelled as duplicate-free lists of pushers;
a pusher is `none` for Python `None` or `some k` for the node with key `k`. -/

abbrev Pusher := Option String

/-- Insert into an `id()`-keyed set. -/
def insertPusher (p : Pusher) (l : List Pusher) : List Pusher :=
  if p ∈ l then l else p :: l

/-- The per-node dependency bookkeeping: the immutable `needs` list and the
two sets `_finalized_dependencies` and `_enqueued_dependencies`. -/
structure DepState where
  needs : List String
  finalizedDeps : List Pusher
  enqueuedDeps : List Pusher
  deriving DecidableEq, Repr

/-- `Node.dependency_count` (extractor.py lines 58-60). -/
def DepState.dependencyCount (s : DepState) : Nat :=
  s.needs.length

/-- `Node._finalized` (extractor.py lines 104-113): both sets must have
reached the dependency count. -/
def DepState.finalizedB (s : DepState) : Bool :=
  decide (s.finalizedDeps.length ≥ s.dependencyCount) &&
  decide (s.enqueuedDeps.length ≥ s.dependencyCount)

/-- The data-intake prefix of `Node.process` (extractor.py lines 132-135):
only a non-`None` datum records the pusher as an enqueued dependency. -/
def DepState.intake (s : DepState) (pusher : Pusher) (data : Option Data) :
    DepState :=
  match data with
  | none => s
  | some _ => { s with enqueuedDeps := insertPusher pusher s.enqueuedDeps }

/-- The bookkeeping part of `Node._finish` when called with a pusher
(extractor.py lines 121-124): the pusher is recorded as finalized only when
it is one of the node's needs. -/
def DepState.finishRecord (s : DepState) (pusher : Pusher) : DepState :=
  match pusher with
  | none => s
  | some k =>
      if k ∈ s.needs then
        { s with finalizedDeps := insertPusher (some k) s.finalizedDeps }
      else s

/-- An upstream-to-node event during a run. -/
inductive DepEv where
  | enq (p : String)
  | fin (p : String)
  deriving DecidableEq, Repr

def DepState.applyEv (s : DepState) : DepEv → DepState
  | .enq p => s.intake (some p) (some [])
  | .fin p => s.finishRecord (some p)

def DepState.runEvs (s : DepState) (evs : List DepEv) : DepState :=
  evs.foldl DepState.applyEv s

/-- The fresh bookkeeping state of a node with the given needs
(extractor.py lines 35-36). -/
def DepState.init (needs : List String) : DepState :=
  { needs := needs, finalizedDeps := [], enqueuedDeps := [] }

/-- Number of events of a given shape in a run. -/
def countEnq (p : String) (evs : List DepEv) : Nat :=
  evs.count (.enq p)

def countFin (p : String) (evs : List DepEv) : Nat :=
  evs.count (.fin p)

/-- An event originates from a pusher among the node's needs. -/
def evOk (needs : List String) : DepEv → Bool
  | .enq p => decide (p ∈ needs)
  | .fin p => decide (p ∈ needs)

def isFinEv : DepEv → Bool
  | .fin _ => true
  | .enq _ => false

/-! ## Databases

`InMemoryDatabase` (data.py lines 121-158) keeps a dict from key to either a
still-open `StringIO` (registered at `write_stream` time, line 128) or the
promoted string (written by the hijacked close, lines 130-136).  A value is
modelled as `Entry.pending buf` while the writer is open and
`Entry.committed bytes` after close. -/

inductive Entry where
  | pending (buf : Data)
  | committed (bytes : Data)
  deriving DecidableEq, Repr

abbrev Store := List (String × Entry)

def storeLookup (k : String) : Store → Option Entry
  | [] => none
  | (k2, e) :: rest => if k2 = k then some e else storeLookup k rest

/-- `key in self._dict` (data.py lines 154-155). -/
def storeHas (k : String) (st : Store) : Bool :=
  (storeLookup k st).isSome

/-- Python dict assignment `self._dict[key] = v`. -/
def storeSet (k : String) (e : Entry) : Store → Store
  | [] => [(k, e)]
  | (k2, e2) :: rest =>
      if k2 = k then (k, e) :: rest else (k2, e2) :: storeSet k e rest

/-- `del self._dict[key]` under the rollback `try`/`except: pass`
(model.py lines 82-85): erase if present, silently keep the store otherwise. -/
def storeErase (k : String) (st : Store) : Store :=
  st.filter fun kv => kv.1 ≠ k

/-- `InMemoryDatabase.write_stream` (data.py lines 126-137): a fresh
`StringIO` is stored under the key immediately, before any write or close. -/
def memWriteStream (k : String) (st : Store) : Store :=
  storeSet k (.pending []) st

/-- A write on the open `StringIO` of `key`. -/
def memWrite (k : String) (d : Data) (st : Store) : Store :=
  match storeLookup k st with
  | some (.pending b) => storeSet k (.pending (b ++ d)) st
  | _ => st

/-- The hijacked close (data.py lines 130-136): the buffered contents
replace the `StringIO` object under the key. -/
def memClose (k : String) (st : Store) : Store :=
  match storeLookup k st with
  | some (.pending b) => storeSet k (.committed b) st
  | _ => st

/-- `InMemoryDatabase.read_stream` (data.py lines 139-140): a missing key
raises `KeyError`; a still-open writer stored under the key is a `StringIO`
object, and `IOWithLength.__init__` calls `len` on it, which raises
`AttributeError` — `StringIO.StringIO` is an old-style Python 2 class with
no `__len__` attribute; a committed value is returned. -/
def memReadStream (k : String) (st : Store) : Except PyExc Data :=
  match storeLookup k st with
  | none => .error .keyError
  | some (.pending _) => .error .attributeError
  | some (.committed b) => .ok b

/-- `FileSystemDatabase.write_stream` (data.py lines 168-169):
`open(path, 'wb')` creates (or truncates) the file at once, so the key
exists in the directory immediately. -/
def fsWriteStream (k : String) (st : Store) : Store :=
  storeSet k (.pending []) st

/-- `FileSystemDatabase.__contains__` (data.py lines 193-195):
`os.path.exists` on the key path. -/
def fsContains (k : String) (st : Store) : Bool :=
  storeHas k st

/-! `LmdbDatabase` (lmdbstore.py): `WriteStream` (lines 7-27) only appends to
an in-process `BytesIO` buffer; nothing reaches the environment until
`close` runs `txn.put`.  The partitioning of the composed key into a
sub-database and an in-partition key (lines 83-91) is invisible to callers
and is abstracted away: the store is keyed by the composed key. -/

abbrev LStore := List (String × Data)

def lstoreLookup (k : String) : LStore → Option Data
  | [] => none
  | (k2, d) :: rest => if k2 = k then some d else lstoreLookup k rest

def lstoreSet (k : String) (d : Data) : LStore → LStore
  | [] => [(k, d)]
  | (k2, d2) :: rest =>
      if k2 = k then (k, d) :: rest else (k2, d2) :: lstoreSet k d rest

/-- The state of an open LMDB `WriteStream` (lmdbstore.py lines 7-12). -/
structure LWriteStream where
  key : String
  buf : Data
  deriving DecidableEq, Repr

/-- `LmdbDatabase.write_stream` (lmdbstore.py lines 101-102): returns a
buffering stream and leaves the committed store untouched. -/
def lmdbWriteStream (k : String) (st : LStore) : LWriteStream × LStore :=
  ({ key := k, buf := [] }, st)

/-- `WriteStream.write` (lmdbstore.py lines 26-27): append to the buffer. -/
def lmdbWrite (ws : LWriteStream) (d : Data) : LWriteStream :=
  { ws with buf := ws.buf ++ d }

/-- `WriteStream.close` (lmdbstore.py lines 20-24): only now is the buffer
put into the environment. -/
def lmdbClose (ws : LWriteStream) (st : LStore) : LStore :=
  lstoreSet ws.key ws.buf st

/-- `LmdbDatabase.__contains__` (lmdbstore.py lines 144-151). -/
def lmdbContains (k : String) (st : LStore) : Bool :=
  (lstoreLookup k st).isSome

/-! ## The extraction graph interpreter (extractor.py)

Nodes are either user/encoder nodes, whose `_process` is a pure function
from the input chunk to the yielded chunks (a prefix) together with an
optional exception raised after that prefix, plus a `_last_chunk` list; or a
`DataWriter` leaf.  `datawriter.py` is not under src/, so the writer node is
modelled from the spec (section 4.H): on each incoming encoded chunk it
lazily opens `write_stream(composed_key, content_type)` against its bound
database on the first chunk and writes the chunk; on finalize it closes the
stream (once). -/

inductive NKind where
  | pureNode (proc : Data → List (Option Data) × Option PyExc) (last : List Data)
  | writerNode (dbId : Nat) (wkey : String)

/-- A node as registered in the graph: its upstream keys and behaviour. -/
structure GNode where
  needs : List String
  kind : NKind

/-- The graph dict, key to node, in insertion order (extractor.py line 177,
`class Graph(dict)`). -/
abbrev Graph := List (String × GNode)

def graphLookup (k : String) : Graph → Option GNode
  | [] => none
  | (k2, n) :: rest => if k2 = k then some n else graphLookup k rest

def graphErase (k : String) (g : Graph) : Graph :=
  g.filter fun kv => kv.1 ≠ k

/-- `Graph.roots` (extractor.py lines 181-182): nodes with no needs. -/
def rootsOf (g : Graph) : Graph :=
  g.filter fun kv => kv.2.needs.isEmpty

/-- `Graph.subscriptions` (extractor.py lines 187-192): for every node of the
graph, it is a subscriber of each of its needs. -/
def subsOf (g : Graph) (p : String) : List String :=
  (g.filter fun kv => p ∈ kv.2.needs).map Prod.fst

/-- The collection of shared databases, by id. -/
abbrev Dbs := Nat → Store

/-- Dynamic state of one node during a run. -/
structure NState where
  cache : Option Data
  deps : DepState
  wopened : Bool
  wclosed : Bool

/-- Fresh node state (extractor.py lines 19-36). -/
def initNState (n : GNode) : NState :=
  { cache := none, deps := DepState.init n.needs,
    wopened := false, wclosed := false }

/-- Global run state: all node states plus the shared databases. -/
structure RState where
  states : String → NState
  dbs : Dbs

def updateState (s : RState) (k : String) (v : NState) : RState :=
  { s with states := fun x => if x = k then v else s.states x }

/-- Replace one node's state and the shared databases. -/
def setNode (s : RState) (k : String) (v : NState) (dbs : Dbs) : RState :=
  { states := fun x => if x = k then v else s.states x, dbs := dbs }

def initRState (g : Graph) (dbs0 : Dbs) : RState :=
  { states := fun k =>
      match graphLookup k g with
      | some n => initNState n
      | none => initNState { needs := [], kind := .pureNode (fun _ => ([], none)) [] },
    dbs := dbs0 }

/-- The result of running one `Node.process` generator to exhaustion
(extractor.py lines 132-151), split at its yield points: `outSegs` are the
pushes of the `_process` loop (one segment per yield, each containing the
single `_push` of line 142, or an empty segment for the `yield None` of the
`NotEnoughData` handler); `err` is an exception `_process` raised after that
prefix; `lastSegs` are the `_last_chunk` pushes of lines 147-148; and
`doesFinish` records whether the `is_root or _finalized` branch was taken,
whose `_finish(pusher=None)` / `_push(None)` effects are applied by the
consumer of the generator. -/
structure CallSegs where
  nst : NState
  dbs : Dbs
  outSegs : List (List EMsg)
  err : Option PyExc
  lastSegs : List (List EMsg)
  doesFinish : Bool

/-- `DataWriter._enqueue`-side effect of a chunk, modelled from the spec
(section 4.H): lazily open the write stream against the bound database on
the first chunk and write the chunk. -/
def writerIngest (dbId : Nat) (wkey : String) (opened : Bool) (d : Data)
    (dbs : Dbs) : Dbs :=
  fun i =>
    if i = dbId then
      memWrite wkey d (if opened then dbs i else memWriteStream wkey (dbs i))
    else dbs i

/-- `DataWriter._finalize`, modelled from the spec (section 4.H): close the
stream it opened, once; `Node._finalize` of every other node is a no-op
(extractor.py lines 101-102). -/
def writerClose (n : GNode) (st : NState) (dbs : Dbs) : NState × Dbs :=
  match n.kind with
  | .writerNode dbId wkey =>
      if st.wopened && !st.wclosed then
        ({ st with wclosed := true },
         fun i => if i = dbId then memClose wkey (dbs i) else dbs i)
      else (st, dbs)
  | .pureNode _ _ => (st, dbs)

/-- The tail of `Node.process` (extractor.py lines 146-151): when the node is
a root or finalized, the `_last_chunk` pushes are emitted, followed by the
`_finish` envelope and the trailing `None` push. -/
def finPhase (n : GNode) (st : NState) (dbs : Dbs)
    (outSegs : List (List EMsg)) : CallSegs :=
  if n.needs.isEmpty || st.deps.finalizedB then
    let lastSegs :=
      match n.kind with
      | .pureNode _ last => last.map fun d => [EMsg.procMsg (some d)]
      | .writerNode _ _ => []
    { nst := st, dbs := dbs, outSegs := outSegs, err := none,
      lastSegs := lastSegs, doesFinish := true }
  else
    { nst := st, dbs := dbs, outSegs := outSegs, err := none,
      lastSegs := [], doesFinish := false }

/-- One full call of `Node.process(data, pusher, queue)`
(extractor.py lines 132-151). -/
def nodeCall (n : GNode) (st0 : NState) (dbs : Dbs) (data : Option Data)
    (pusher : Pusher) : CallSegs :=
  let st := { st0 with deps := st0.deps.intake pusher data,
                       cache := match data with
                                | some d => some d
                                | none => st0.cache }
  match st.cache with
  | none =>
      finPhase n st dbs [[]]
  | some inp =>
      let st := { st with cache := none }
      match n.kind with
      | .pureNode proc _ =>
          let r := proc inp
          let segs := r.1.map fun o => [EMsg.procMsg o]
          match r.2 with
          | some e =>
              { nst := st, dbs := dbs, outSegs := segs, err := some e,
                lastSegs := [], doesFinish := false }
          | none => finPhase n st dbs segs
      | .writerNode dbId wkey =>
          let dbs2 := writerIngest dbId wkey st.wopened inp dbs
          let st := { st with wopened := true }
          finPhase n st dbs2 []

/-- Pushing a sequence of messages via `Node._push`, each `appendleft`
(extractor.py lines 115-119). -/
def applyPushes (selfKey : String) (msgs : List EMsg) (q : List Envelope) :
    List Envelope :=
  msgs.foldl (fun acc m => pushEnv { pusher := selfKey, msg := m } acc) q

/-- All pushes a fully consumed subscriber generator performed, in order:
the `_process` pushes, then (unless an exception interrupted the body) the
`_last_chunk` pushes, the finish envelope and the trailing `None` push. -/
def CallSegs.allPushes (c : CallSegs) : List EMsg :=
  c.outSegs.flatten ++
    (if c.doesFinish then c.lastSegs.flatten ++ [EMsg.finishMsg, EMsg.procMsg none]
     else [])

/-- Delivery of one envelope to one subscriber (extractor.py lines 237-242):
a `process` envelope runs the subscriber's generator to exhaustion (the list
comprehension of line 240); a `_finish` envelope calls `_finish(pusher=p)`
(lines 121-126), whose `None` return value raises `TypeError` when iterated,
silently swallowed by lines 241-242.  An exception other than `TypeError`
escaping the generator propagates. -/
def deliverOne (g : Graph) (sub : String) (env : Envelope) (s : RState)
    (q : List Envelope) : RState × List Envelope × Option PyExc :=
  match graphLookup sub g with
  | none => (s, q, none)
  | some n =>
      match env.msg with
      | .procMsg data =>
          let c := nodeCall n (s.states sub) s.dbs data (some env.pusher)
          let sAfterBody := setNode s sub c.nst c.dbs
          match c.err with
          | some .typeError =>
              (sAfterBody, applyPushes sub c.allPushes q, none)
          | some e =>
              (sAfterBody, applyPushes sub c.allPushes q, some e)
          | none =>
              let cl := writerClose n c.nst c.dbs
              let s2 := if c.doesFinish then setNode sAfterBody sub cl.1 cl.2
                        else sAfterBody
              (s2, applyPushes sub c.allPushes q, none)
      | .finishMsg =>
          let cl := writerClose n (s.states sub) s.dbs
          let nst := { cl.1 with deps := (cl.1).deps.finishRecord (some env.pusher) }
          (setNode s sub nst cl.2, q, none)

/-- Deliver one envelope to every subscriber of its producer in turn
(extractor.py line 237). -/
def deliverAll (g : Graph) (subs : List String) (env : Envelope) (s : RState)
    (q : List Envelope) : RState × List Envelope × Option PyExc :=
  match subs with
  | [] => (s, q, none)
  | sub :: rest =>
      let r := deliverOne g sub env s q
      match r.2.2 with
      | some e => (r.1, r.2.1, some e)
      | none => deliverAll g rest env r.1 r.2.1

/-- The drain loop (extractor.py lines 235-242): `while queue:` pop the
rightmost envelope and deliver it. -/
def drainLoop (g : Graph) : Nat → RState → List Envelope →
    RState × Option PyExc
  | 0, s, q => (s, if q.isEmpty then none else some .outOfFuel)
  | fuel + 1, s, q =>
      match drainPopped q with
      | none => (s, none)
      | some env =>
          let r := deliverAll g (subsOf g env.pusher) env s (drainRest q)
          match r.2.2 with
          | some e => (r.1, some e)
          | none => drainLoop g fuel r.1 r.2.1

/-! Root generators.  `Graph.process` (extractor.py lines 230-242) creates
one generator per root node and advances each of them by one `next()` per
`izip_longest` round, draining the queue fully between rounds.  A root
generator is compiled, on its first `next()`, into a list of actions, one
per yield point of `Node.process`. -/

inductive RootAct where
  | pushSeg (msgs : List EMsg)
  | raiseE (e : PyExc)
  | finishAct

inductive RootPhase where
  | fresh (input : Data)
  | running (acts : List RootAct)

structure RootGen where
  key : String
  phase : RootPhase

def RootGen.isDone (rg : RootGen) : Bool :=
  match rg.phase with
  | .running [] => true
  | _ => false

/-- Compile a root generator body: the `_process` pushes (one per yield),
then either the pending exception, or the `_last_chunk` pushes followed by
the final `_finish` / `_push(None)` step.  A root node always takes the
`is_root` branch (extractor.py line 146). -/
def rootActs (c : CallSegs) : List RootAct :=
  c.outSegs.map RootAct.pushSeg ++
    (match c.err with
     | some e => [RootAct.raiseE e]
     | none =>
         if c.doesFinish then c.lastSegs.map RootAct.pushSeg ++ [RootAct.finishAct]
         else [])

/-- Execute one action of a root generator. -/
def execAct (g : Graph) (gkey : String) (s : RState) (q : List Envelope) :
    RootAct → RState × List Envelope × Option PyExc
  | .pushSeg msgs => (s, applyPushes gkey msgs q, none)
  | .raiseE e => (s, q, some e)
  | .finishAct =>
      match graphLookup gkey g with
      | none => (s, q, none)
      | some n =>
          let cl := writerClose n (s.states gkey) s.dbs
          (setNode s gkey cl.1 cl.2,
           applyPushes gkey [EMsg.finishMsg, EMsg.procMsg none] q, none)

/-- Advance one root generator by one `next()`.  The first `next()` runs the
body of `Node.process` up to and including the first yield: the intake of the
kwarg datum (with `pusher=None`), the `_process` loop effects, and the first
push. -/
def advanceGen (g : Graph) (s : RState) (q : List Envelope) (rg : RootGen) :
    RootGen × RState × List Envelope × Option PyExc :=
  match rg.phase with
  | .fresh v =>
      (match graphLookup rg.key g with
       | none => ({ rg with phase := .running [] }, s, q, none)
       | some n =>
           let c := nodeCall n (s.states rg.key) s.dbs (some v) none
           let s2 : RState := setNode s rg.key c.nst c.dbs
           match rootActs c with
           | [] => ({ rg with phase := .running [] }, s2, q, none)
           | a :: rest =>
               let r := execAct g rg.key s2 q a
               ({ rg with phase := .running rest }, r.1, r.2.1, r.2.2))
  | .running [] => (rg, s, q, none)
  | .running (a :: rest) =>
      let r := execAct g rg.key s q a
      ({ rg with phase := .running rest }, r.1, r.2.1, r.2.2)

/-- Advance every root generator once, in order, as one `izip_longest`
round; an exception raised by a generator propagates at once. -/
def advanceGens (g : Graph) : List RootGen → RState → List Envelope →
    List RootGen × RState × List Envelope × Option PyExc
  | [], s, q => ([], s, q, none)
  | rg :: rest, s, q =>
      let r := advanceGen g s q rg
      match r.2.2.2 with
      | some e => (r.1 :: rest, r.2.1, r.2.2.1, some e)
      | none =>
          let r2 := advanceGens g rest r.2.1 r.2.2.1
          (r.1 :: r2.1, r2.2)

/-- The `for _ in izip_longest(*generators): while queue: ...` loop
(extractor.py lines 234-242): one round advances every generator once, then
drains the queue; the loop ends when every generator is exhausted. -/
def processRounds (g : Graph) : Nat → List RootGen → RState →
    RState × Option PyExc
  | 0, gens, s => (s, if gens.all RootGen.isDone then none else some .outOfFuel)
  | fuel + 1, gens, s =>
      if gens.all RootGen.isDone then (s, none)
      else
        let r := advanceGens g gens s []
        match r.2.2.2 with
        | some e => (r.2.1, some e)
        | none =>
            let d := drainLoop g (fuel + 1) r.2.1 r.2.2.1
            match d.2 with
            | some e => (d.1, some e)
            | none => processRounds g fuel r.1 d.1

/-- `Graph.process(**kwargs)` (extractor.py lines 210-242) starting from the
given database contents.  The root-coverage check of lines 217-223 raises
`KeyError` when some root key is missing from the kwargs. -/
def graphProcess (g : Graph) (kwargs : List (String × Data)) (dbs0 : Dbs)
    (fuel : Nat) : RState × Option PyExc :=
  let roots := rootsOf g
  if roots.any fun kv => (kwargs.lookup kv.1).isNone then
    (initRState g dbs0, some .keyError)
  else
    let gens := roots.filterMap fun kv =>
      (kwargs.lookup kv.1).map fun v => RootGen.mk kv.1 (.fresh v)
    processRounds g fuel gens (initRState g dbs0)

/-! ## Dead-node pruning (extractor.py lines 194-208)

Pruning walks over the mutable `_listeners` lists.  The state keeps the
graph dict, the listener lists of every node ever constructed (kept for
removed nodes too, as the Python objects outlive their graph entry), and the
work deque.  `needsOf` is the static `needs` list of every constructed node
and `featStore` is the `mapping` of line 197, restricted to its store flag:
`featStore k = some b` when a feature with key `k` (hence backing the node
registered under `k`) exists and has `store = b`. -/

structure PruneState where
  g : Graph
  listeners : String → List String
  queue : List String

/-- `list.remove(x)`: drop the first occurrence, `ValueError` if absent. -/
def removeFirst (x : String) : List String → Option (List String)
  | [] => none
  | y :: ys => if y = x then some ys else (removeFirst x ys).map (y :: ·)

/-- `Node.disconnect` (extractor.py lines 78-80): remove self from the
listener list of every need, once per occurrence in `needs`. -/
def disconnect (x : String) (ls : String → List String) :
    List String → Except PyExc (String → List String)
  | [] => .ok ls
  | e :: rest =>
      match removeFirst x (ls e) with
      | none => .error .valueError
      | some l2 => disconnect x (fun p => if p = e then l2 else ls p) rest

/-- One iteration of the `while nodes:` loop of `remove_dead_nodes`
(extractor.py lines 199-208): pop the rightmost entry, extend the deque on
the left with its needs, then remove it when it maps to an unstored feature
and is currently a leaf. -/
def pruneIter (needsOf : String → List String)
    (featStore : String → Option Bool) (ps : PruneState) (x : String)
    (qrest : List String) : Except PyExc PruneState :=
  let q2 := (needsOf x).reverse ++ qrest
  match featStore x with
  | none => .ok { ps with queue := q2 }
  | some store =>
      if (ps.listeners x).isEmpty && !store then
        match disconnect x ps.listeners (needsOf x) with
        | .error e => .error e
        | .ok ls2 =>
            if (graphLookup x ps.g).isSome then
              .ok { g := graphErase x ps.g, listeners := ls2, queue := q2 }
            else .error .keyError
      else .ok { ps with queue := q2 }

def pruneLoop (needsOf : String → List String)
    (featStore : String → Option Bool) :
    Nat → PruneState → Except PyExc PruneState
  | 0, ps => if ps.queue.isEmpty then .ok ps else .error .outOfFuel
  | fuel + 1, ps =>
      match ps.queue.getLast? with
      | none => .ok ps
      | some x =>
          match pruneIter needsOf featStore ps x ps.queue.dropLast with
          | .error e => .error e
          | .ok ps2 => pruneLoop needsOf featStore fuel ps2

/-- `Graph.remove_dead_nodes` (extractor.py lines 194-208): the deque starts
as the current leaves, in graph order. -/
def removeDeadNodes (needsOf : String → List String)
    (featStore : String → Option Bool) (g : Graph)
    (listeners : String → List String) (fuel : Nat) :
    Except PyExc PruneState :=
  let leavesK := (g.filter fun kv => (listeners kv.1).isEmpty).map Prod.fst
  pruneLoop needsOf featStore fuel
    { g := g, listeners := listeners, queue := leavesK }

/-! ## Model layer (model.py, feature.py `_build_extractor`)

A model-level feature declaration.  `persist` is the per-feature
`PersistenceSettings` override (`persistence.py` is not under src/; modelled
from the spec, section 6: a bundle carrying the database, here by id, with
the class-level bundle used when the feature has none — feature.py lines
86-90).  `version` stands for the pure `Feature.version` string. -/

inductive MFeature where
  | mk (key : String) (store : Bool) (persist : Option Nat) (version : String)
      (kind : NKind) (needs : List MFeature)

def MFeature.key : MFeature → String
  | .mk k _ _ _ _ _ => k

def MFeature.store : MFeature → Bool
  | .mk _ s _ _ _ _ => s

def MFeature.persist : MFeature → Option Nat
  | .mk _ _ p _ _ _ => p

def MFeature.version : MFeature → String
  | .mk _ _ _ v _ _ => v

def MFeature.fneeds : MFeature → List MFeature
  | .mk _ _ _ _ _ ns => ns

/-- The class key builder applied to `(_id, feature_name, feature_version)`
(the default `StringDelimitedKeyBuilder` with separator a colon,
data.py lines 65-74). -/
def composedKey (docId fkey fver : String) : String :=
  String.intercalate ":" [docId, fkey, fver]

/-- `Feature._build_extractor` (feature.py lines 214-243): look the feature
key up first (idempotence), recursively build the needs, register the
extractor node, and for a stored feature append its encoder and its data
writer bound to `(self.persistence or persistence).database`.  The encoder
is modelled from the spec (encoder.py is not under src/): the identity
streaming byte transform. -/
def identityEncoder : NKind :=
  .pureNode (fun d => ([some d], none)) []

mutual

def buildExtractor (docId : String) (clsDb : Nat) :
    MFeature → Graph → Graph
  | .mk key store persist ver kind needs, g =>
      if (graphLookup key g).isSome then g
      else
        let g2 := buildNeeds docId clsDb needs g
        let e : GNode := { needs := needs.map MFeature.key, kind := kind }
        let g3 := g2 ++ [(key, e)]
        if store then
          let enc : GNode := { needs := [key], kind := identityEncoder }
          let g4 := g3 ++ [(key ++ "_encoder", enc)]
          let dw : GNode := { needs := [key ++ "_encoder"],
                              kind := .writerNode (persist.getD clsDb)
                                        (composedKey docId key ver) }
          g4 ++ [(key ++ "_writer", dw)]
        else g3

def buildNeeds (docId : String) (clsDb : Nat) :
    List MFeature → Graph → Graph
  | [], g => g
  | f :: fs, g => buildNeeds docId clsDb fs (buildExtractor docId clsDb f g)

end

/-- `BaseModel._build_extractor` (model.py lines 69-74): build every
declared feature into one shared graph. -/
def buildModelGraph (docId : String) (clsDb : Nat)
    (features : List MFeature) : Graph :=
  buildNeeds docId clsDb features []

/-- Listener lists as produced by node construction (extractor.py lines
32-33): every node appends itself to the listener list of each of its needs,
once per occurrence, in construction (= insertion) order. -/
def initListeners (g : Graph) (p : String) : List String :=
  (g.map fun kv => (kv.2.needs.filter (· = p)).map fun _ => kv.1).flatten

/-- The `mapping` of `remove_dead_nodes` (extractor.py line 197) restricted
to the store flag: the node registered under a feature's key backs it. -/
def featStoreOf (features : List MFeature) : String → Option Bool :=
  fun k => (features.find? fun f => f.key = k).map MFeature.store

/-- The static `needs` map of the nodes constructed for a graph: the needs
list of the node registered under the key (the `extractor.needs` attribute,
readable also after the node leaves the graph dict). -/
def needsFn (g : Graph) : String → List String :=
  fun k => match graphLookup k g with
           | some n => n.needs
           | none => []

/-- `BaseModel._rollback` (model.py lines 76-85): for every stored feature
of the model, delete the key built by the class `key_builder` from the class
`database`, ignoring failures.  Note the class-level bundle is used even for
features carrying their own persistence settings. -/
def rollback (clsDb : Nat) (docId : String) (features : List MFeature)
    (dbs : Dbs) : Dbs :=
  features.foldl
    (fun acc f =>
      if f.store then
        fun i => if i = clsDb then
                   storeErase (composedKey docId f.key f.version) (acc i)
                 else acc i
      else acc)
    dbs

/-- `BaseModel.process` (model.py lines 87-98): mint the id, build the full
graph, prune dead nodes, run the graph; on an exception from the run, roll
back and re-raise the same exception.  The result pairs the Python-level
outcome (the minted id, or the propagated exception) with the final shared
state.  Pruning happens outside the `try`, so its exceptions propagate
without rollback. -/
def modelProcess (clsDb : Nat) (docId : String) (features : List MFeature)
    (kwargs : List (String × Data)) (dbs0 : Dbs) (fuel : Nat) :
    Except PyExc String × RState :=
  let g0 := buildModelGraph docId clsDb features
  match removeDeadNodes (needsFn g0)
          (featStoreOf features) g0 (initListeners g0) fuel with
  | .error e => (.error e, initRState g0 dbs0)
  | .ok ps =>
      let r := graphProcess ps.g kwargs dbs0 fuel
      match r.2 with
      | none => (.ok docId, r.1)
      | some e => (.error e, { r.1 with dbs := rollback clsDb docId features r.1.dbs })

/-! ## Concrete models used as witnesses and counterexamples -/

/-- A pass-through extractor: `_process` yields its input chunk. -/
def passKind : NKind := .pureNode (fun d => ([some d], none)) []

/-- An extractor whose `_process` yields nothing. -/
def emptyKind : NKind := .pureNode (fun _ => ([], none)) []

def streamF : MFeature := .mk "stream" false none "v" passKind []

def bodyF : MFeature := .mk "body" true none "v" passKind [streamF]

def featsA : List MFeature := [streamF, bodyF]

def emptyDbs : Dbs := fun _ => []

/-- A stored feature whose extractor emits no chunk for the input. -/
def bodyB : MFeature := .mk "body" true none "v" emptyKind [streamF]

def featsB : List MFeature := [streamF, bodyB]

/-- A root that emits the chunks `[1]` then `[2]`. -/
def twoChunkRoot : NKind := .pureNode (fun _ => ([some [1], some [2]], none)) []

def streamC : MFeature := .mk "stream" false none "v" twoChunkRoot []

/-- A stored feature bound to its own persistence settings (database 1). -/
def ownF : MFeature := .mk "own" true (some 1) "v" passKind [streamC]

/-- An extractor that raises on the chunk `[2]`. -/
def boomKind : NKind :=
  .pureNode (fun d => if d = [2] then ([], some (.userError 7)) else ([], none)) []

def boomF : MFeature := .mk "boom" true none "v" boomKind [streamC]

def featsC : List MFeature := [streamC, ownF, boomF]

/-- An extractor whose `_process` raises `TypeError` on any chunk. -/
def typeErrKind : NKind := .pureNode (fun _ => ([], some .typeError)) []

def teF : MFeature := .mk "te" true none "v" typeErrKind [streamF]

def featsD : List MFeature := [streamF, teF]

/-- An unstored leaf feature (dead) next to a stored one. -/
def deadF : MFeature := .mk "dead" false none "v" passKind [streamF]

def keptF : MFeature := .mk "kept" true none "v" passKind [streamF]

def featsE : List MFeature := [streamF, deadF, keptF]

def gE : Graph := buildModelGraph "d" 0 featsE

/-! ## Claim C3: drain order of the work queue -/

/-- Claim C3 as stated: whenever the drain loop removes an envelope from a
queue holding more than one, the removed envelope is the most recently
pushed one.  Refuted: pushing `envA3` then `envB3` onto the empty queue via
`Node._push` and removing via `queue.pop()` yields `envA3`, the oldest
envelope, not the most recently pushed `envB3`. -/
theorem C3_counterexample :
    (pushEnv { pusher := "b", msg := .finishMsg }
      (pushEnv { pusher := "a", msg := .procMsg none } [])).length = 2 ∧
    drainPopped (pushEnv { pusher := "b", msg := .finishMsg }
      (pushEnv { pusher := "a", msg := .procMsg none } [])) =
      some { pusher := "a", msg := .procMsg none } ∧
    ({ pusher := "a", msg := .procMsg none } : Envelope) ≠
      { pusher := "b", msg := .finishMsg } := by
  decide

theorem foldl_pushEnv (es : List Envelope) (q : List Envelope) :
    es.foldl (fun acc x => pushEnv x acc) q = es.reverse ++ q := by
  induction es generalizing q with
  | nil => simp
  | cons e es ih => simp [pushEnv, ih]

/-- Claim C3 (amended): the work queue is FIFO — `Node._push` uses
`appendleft` and the drain loop removes with `pop()` from the opposite end,
so the envelope removed is the least recently pushed one. -/
theorem C3_theorem (e : Envelope) (es : List Envelope) :
    drainPopped ((e :: es).foldl (fun acc x => pushEnv x acc) []) = some e := by
  rw [foldl_pushEnv, drainPopped]
  simp

/-! ## Claim C4: exception propagation out of the drain loop -/

/-- Claim C4 as stated: every exception raised inside a node's `process`
propagates out of `Graph.process` and aborts the run.  Refuted: in model D a
stored feature's extractor raises `TypeError` on its chunk, yet
`BaseModel.process` completes successfully, because the drain loop's
`except TypeError: continue` (extractor.py lines 241-242) swallows it. -/
theorem C4_counterexample :
    (match typeErrKind with
     | .pureNode proc _ => (proc [1, 2, 3]).2
     | .writerNode _ _ => none) = some PyExc.typeError ∧
    (modelProcess 0 "d" featsD [("stream", [1, 2, 3])] emptyDbs 50).1 =
      .ok "d" := by
  exact ⟨rfl, rfl⟩

/-- Claim C4 (amended): an exception raised inside a subscriber's `process`
generator propagates out of the drain-loop delivery — and hence aborts the
run — unless it is a `TypeError`, which lines 241-242 of extractor.py catch,
silently skipping that delivery. -/
theorem C4_theorem (g : Graph) (sub : String) (n : GNode) (p : String)
    (data : Option Data) (s : RState) (q : List Envelope) (e : PyExc)
    (hn : graphLookup sub g = some n)
    (he : (nodeCall n (s.states sub) s.dbs data (some p)).err = some e) :
    (deliverOne g sub { pusher := p, msg := .procMsg data } s q).2.2 =
      (if e = .typeError then none else some e) := by
  simp only [deliverOne, hn]
  cases e <;> simp [he]

def g4 : Graph :=
  [("r", { needs := [], kind := passKind }),
   ("t", { needs := ["r"], kind := .pureNode (fun _ => ([], some (.userError 3))) [] })]

/-- Witness for C4: a concrete subscriber raising a non-TypeError exception
makes the delivery propagate exactly that exception. -/
theorem C4_witness :
    (deliverOne g4 "t" { pusher := "r", msg := .procMsg (some [1]) }
      (initRState g4 emptyDbs) []).2.2 = some (PyExc.userError 3) := by
  have h := C4_theorem g4 "t"
    { needs := ["r"], kind := .pureNode (fun _ => ([], some (.userError 3))) [] }
    "r" (some [1]) (initRState g4 emptyDbs) [] (.userError 3) rfl rfl
  simpa using h

/-! ## Claim C5: the NotComputable decision of Feature fetch -/

theorem all_attach_canCompute (l : List FTree) :
    (l.attach.all fun n => canCompute n.1) = l.all canCompute := by
  rw [Bool.eq_iff_iff, List.all_eq_true, List.all_eq_true]
  constructor
  · intro h x hx
    exact h ⟨x, hx⟩ (List.mem_attach l ⟨x, hx⟩)
  · intro h x _
    exact h x.1 x.2

theorem canCompute_eq (k : String) (s : Bool) (ns : List FTree) :
    canCompute (.mk k s ns) = (s || (!ns.isEmpty && ns.all canCompute)) := by
  rw [canCompute]
  cases s with
  | true => simp
  | false =>
      simp only [if_neg (by simp : ¬False), Bool.false_or]
      by_cases h : ns.isEmpty
      · simp [h]
      · simp [h, all_attach_canCompute]

/-- Claim C5: for a document whose key is not stored, `Feature.__call__`
fails with NotComputable (the `AttributeError` of feature.py line 133)
exactly when `_can_compute` is false; and `_can_compute` is the recursive
predicate of feature.py lines 108-119: true iff the feature is stored, or it
has dependencies and all of them can compute — in particular an unstored
root feature can never compute. -/
theorem C5_theorem (f : FTree) :
    (featureCall false f = .notComputable ↔ canCompute f = false) ∧
    canCompute f = (f.store || (!(f.needs).isEmpty && (f.needs).all canCompute)) ∧
    (f.store = false → f.needs = [] → canCompute f = false) := by
  obtain ⟨k, s, ns⟩ := f
  refine ⟨?_, ?_, ?_⟩
  · cases h : canCompute (FTree.mk k s ns) <;>
      simp [featureCall, h]
  · simpa [FTree.store, FTree.needs] using canCompute_eq k s ns
  · intro hs hn
    simp only [FTree.store] at hs
    simp only [FTree.needs] at hn
    subst hs hn
    rw [canCompute_eq]
    rfl

/-- Witness for C5 at a concrete unstored root feature: the fetch decision
is NotComputable. -/
theorem C5_witness :
    featureCall false (FTree.mk "x" false []) = .notComputable := by
  have h := C5_theorem (FTree.mk "x" false [])
  exact h.1.mpr (h.2.2 rfl rfl)

/-! ## Claim C7: the finalized predicate -/

/-- Claim C7 as stated: `_finalized` is true iff every upstream in `needs`
has enqueued at least one chunk and finalized exactly once, for any multiset
of upstreams including duplicated ones.  Refuted: with `needs = [u, u]`
(the same upstream object appearing twice) and a run in which `u` enqueues
once and finalizes exactly once, every upstream of the multiset satisfies
the right-hand side, yet the `id()`-keyed sets of extractor.py lines 35-36
hold a single element each, so `len(set) >= dependency_count` (lines
111-113) fails and `_finalized` is false. -/
theorem C7_counterexample :
    (∀ p ∈ (DepState.runEvs (DepState.init ["u", "u"])
        [DepEv.enq "u", DepEv.fin "u"]).needs,
      countEnq p [DepEv.enq "u", DepEv.fin "u"] ≥ 1 ∧
      countFin p [DepEv.enq "u", DepEv.fin "u"] = 1) ∧
    (DepState.runEvs (DepState.init ["u", "u"])
        [DepEv.enq "u", DepEv.fin "u"]).finalizedB = false := by
  decide

theorem runEvs_append (s : DepState) (evs : List DepEv) (e : DepEv) :
    DepState.runEvs s (evs ++ [e]) = (DepState.runEvs s evs).applyEv e := by
  simp [DepState.runEvs, List.foldl_append]

theorem runEvs_needs (needs : List String) (evs : List DepEv) :
    (DepState.runEvs (DepState.init needs) evs).needs = needs := by
  induction evs using List.reverseRecOn with
  | nil => rfl
  | append_singleton evs e ih =>
      rw [runEvs_append]
      cases e with
      | enq p => simpa [DepState.applyEv, DepState.intake] using ih
      | fin p =>
          simp only [DepState.applyEv, DepState.finishRecord]
          split <;> simpa using ih

theorem mem_insertPusher (x p : Pusher) (l : List Pusher) :
    x ∈ insertPusher p l ↔ x = p ∨ x ∈ l := by
  by_cases h : p ∈ l
  · simp only [insertPusher, if_pos h]
    constructor
    · exact Or.inr
    · rintro (rfl | hx)
      · exact h
      · exact hx
  · simp [insertPusher, if_neg h]

theorem nodup_insertPusher (p : Pusher) (l : List Pusher) (h : l.Nodup) :
    (insertPusher p l).Nodup := by
  by_cases hp : p ∈ l
  · simpa [insertPusher, if_pos hp] using h
  · simpa [insertPusher, if_neg hp] using ⟨hp, h⟩

theorem runEvs_spec (needs : List String) (evs : List DepEv) :
    (DepState.runEvs (DepState.init needs) evs).finalizedDeps.Nodup ∧
    (DepState.runEvs (DepState.init needs) evs).enqueuedDeps.Nodup ∧
    (∀ x, x ∈ (DepState.runEvs (DepState.init needs) evs).finalizedDeps ↔
      ∃ p, x = some p ∧ p ∈ needs ∧ DepEv.fin p ∈ evs) ∧
    (∀ x, x ∈ (DepState.runEvs (DepState.init needs) evs).enqueuedDeps ↔
      ∃ p, x = some p ∧ DepEv.enq p ∈ evs) := by
  induction evs using List.reverseRecOn with
  | nil => simp [DepState.runEvs, DepState.init]
  | append_singleton evs e ih =>
      obtain ⟨ih1, ih2, ih3, ih4⟩ := ih
      rw [runEvs_append] at *
      have hneeds := runEvs_needs needs evs
      cases e with
      | enq p =>
          refine ⟨?_, ?_, ?_, ?_⟩
          · simpa [DepState.applyEv, DepState.intake] using ih1
          · simpa [DepState.applyEv, DepState.intake] using
              nodup_insertPusher (some p) _ ih2
          · intro x
            simp only [DepState.applyEv, DepState.intake]
            rw [ih3 x]
            constructor
            · rintro ⟨q, rfl, hq, hf⟩
              exact ⟨q, rfl, hq, by simp [hf]⟩
            · rintro ⟨q, rfl, hq, hf⟩
              simp only [List.mem_append, List.mem_singleton] at hf
              rcases hf with hf | hf
              · exact ⟨q, rfl, hq, hf⟩
              · cases hf
          · intro x
            simp only [DepState.applyEv, DepState.intake,
              mem_insertPusher, ih4 x]
            constructor
            · rintro (rfl | ⟨q, rfl, hq⟩)
              · exact ⟨p, rfl, by simp⟩
              · exact ⟨q, rfl, by simp [hq]⟩
            · rintro ⟨q, rfl, hq⟩
              simp only [List.mem_append, List.mem_singleton] at hq
              rcases hq with hq | hq
              · exact Or.inr ⟨q, rfl, hq⟩
              · cases hq
                exact Or.inl rfl
      | fin p =>
          by_cases hp : p ∈ (DepState.runEvs (DepState.init needs) evs).needs
          · refine ⟨?_, ?_, ?_, ?_⟩
            · simpa [DepState.applyEv, DepState.finishRecord, if_pos hp] using
                nodup_insertPusher (some p) _ ih1
            · simpa [DepState.applyEv, DepState.finishRecord, if_pos hp] using ih2
            · intro x
              simp only [DepState.applyEv, DepState.finishRecord, if_pos hp,
                mem_insertPusher, ih3 x]
              rw [hneeds] at hp
              constructor
              · rintro (rfl | ⟨q, rfl, hq, hf⟩)
                · exact ⟨p, rfl, hp, by simp⟩
                · exact ⟨q, rfl, hq, by simp [hf]⟩
              · rintro ⟨q, rfl, hq, hf⟩
                simp only [List.mem_append, List.mem_singleton] at hf
                rcases hf with hf | hf
                · exact Or.inr ⟨q, rfl, hq, hf⟩
                · cases hf
                  exact Or.inl rfl
            · intro x
              simp only [DepState.applyEv, DepState.finishRecord, if_pos hp,
                ih4 x]
              constructor
              · rintro ⟨q, rfl, hq⟩
                exact ⟨q, rfl, by simp [hq]⟩
              · rintro ⟨q, rfl, hq⟩
                simp only [List.mem_append, List.mem_singleton] at hq
                rcases hq with hq | hq
                · exact ⟨q, rfl, hq⟩
                · cases hq
          · refine ⟨?_, ?_, ?_, ?_⟩
            · simpa [DepState.applyEv, DepState.finishRecord, if_neg hp] using ih1
            · simpa [DepState.applyEv, DepState.finishRecord, if_neg hp] using ih2
            · intro x
              simp only [DepState.applyEv, DepState.finishRecord, if_neg hp,
                ih3 x]
              rw [hneeds] at hp
              constructor
              · rintro ⟨q, rfl, hq, hf⟩
                exact ⟨q, rfl, hq, by simp [hf]⟩
              · rintro ⟨q, rfl, hq, hf⟩
                simp only [List.mem_append, List.mem_singleton] at hf
                rcases hf with hf | hf
                · exact ⟨q, rfl, hq, hf⟩
                · cases hf
                  exact absurd hq hp
            · intro x
              simp only [DepState.applyEv, DepState.finishRecord, if_neg hp,
                ih4 x]
              constructor
              · rintro ⟨q, rfl, hq⟩
                exact ⟨q, rfl, by simp [hq]⟩
              · rintro ⟨q, rfl, hq⟩
                simp only [List.mem_append, List.mem_singleton] at hq
                rcases hq with hq | hq
                · exact ⟨q, rfl, hq⟩
                · cases hq

theorem nodup_cover_iff (l : List Pusher) (needs : List String)
    (hnd : needs.Nodup) (h1 : l.Nodup)
    (hsub : ∀ x ∈ l, x ∈ needs.map some) :
    needs.length ≤ l.length ↔ ∀ p ∈ needs, some p ∈ l := by
  have hmap : (needs.map some).Nodup := hnd.map (Option.some_injective String)
  have hlen : l.length = l.toFinset.card := (List.toFinset_card_of_nodup h1).symm
  have hlen2 : (needs.map some).length = (needs.map some).toFinset.card :=
    (List.toFinset_card_of_nodup hmap).symm
  have hsub2 : l.toFinset ⊆ (needs.map some).toFinset := fun x hx =>
    List.mem_toFinset.mpr (hsub x (List.mem_toFinset.mp hx))
  constructor
  · intro hge p hp
    have hc : (needs.map some).toFinset.card ≤ l.toFinset.card := by
      rw [← hlen, ← hlen2, List.length_map]
      exact hge
    have heq := Finset.eq_of_subset_of_card_le hsub2 hc
    have hm : some p ∈ (needs.map some).toFinset :=
      List.mem_toFinset.mpr (List.mem_map_of_mem some hp)
    rw [← heq] at hm
    exact List.mem_toFinset.mp hm
  · intro hcov
    have hss : (needs.map some).toFinset ⊆ l.toFinset := by
      intro x hx
      rw [List.mem_toFinset] at hx ⊢
      obtain ⟨p, hp, rfl⟩ := List.mem_map.mp hx
      exact hcov p hp
    calc needs.length = (needs.map some).toFinset.card := by
          rw [← hlen2, List.length_map]
      _ ≤ l.toFinset.card := Finset.card_le_card hss
      _ = l.length := hlen.symm

/-- Claim C7 (amended): for a node whose `needs` contains no duplicate
upstream, in a run in which every delivery comes from one of the needs and
no upstream finalizes twice, `_finalized` is true iff every upstream has
enqueued at least one chunk and finalized exactly once.  (The `id()`-keyed
sets of extractor.py lines 35-36 cannot distinguish a duplicated upstream
from a single one, so the claim's multiset clause fails; the duplicate-free
hypothesis is what the counterexample forces.) -/
theorem C7_theorem (needs : List String) (evs : List DepEv)
    (hnd : needs.Nodup)
    (hdom : evs.all (evOk needs) = true)
    (hfin1 : (evs.filter isFinEv).Nodup) :
    (DepState.runEvs (DepState.init needs) evs).finalizedB = true ↔
      ∀ p ∈ needs, countEnq p evs ≥ 1 ∧ countFin p evs = 1 := by
  obtain ⟨hA, hB, hAmem, hBmem⟩ := runEvs_spec needs evs
  have hneeds := runEvs_needs needs evs
  have hdom2 : ∀ e ∈ evs, evOk needs e = true := List.all_eq_true.mp hdom
  have hAmem2 : ∀ p ∈ needs,
      (some p ∈ (DepState.runEvs (DepState.init needs) evs).finalizedDeps ↔
        DepEv.fin p ∈ evs) := by
    intro p hp
    rw [hAmem (some p)]
    constructor
    · rintro ⟨q, hq, _, hf⟩
      cases Option.some_injective _ hq
      exact hf
    · intro hf
      exact ⟨p, rfl, hp, hf⟩
  have hBmem2 : ∀ p,
      (some p ∈ (DepState.runEvs (DepState.init needs) evs).enqueuedDeps ↔
        DepEv.enq p ∈ evs) := by
    intro p
    rw [hBmem (some p)]
    constructor
    · rintro ⟨q, hq, hf⟩
      cases Option.some_injective _ hq
      exact hf
    · intro hf
      exact ⟨p, rfl, hf⟩
  have hAsub : ∀ x ∈ (DepState.runEvs (DepState.init needs) evs).finalizedDeps,
      x ∈ needs.map some := by
    intro x hx
    obtain ⟨q, rfl, hq, _⟩ := (hAmem x).mp hx
    exact List.mem_map_of_mem some hq
  have hBsub : ∀ x ∈ (DepState.runEvs (DepState.init needs) evs).enqueuedDeps,
      x ∈ needs.map some := by
    intro x hx
    obtain ⟨q, rfl, hq⟩ := (hBmem x).mp hx
    have := hdom2 _ hq
    simp only [evOk, decide_eq_true_eq] at this
    exact List.mem_map_of_mem some this
  have hle1 : ∀ p, countFin p evs ≤ 1 := by
    intro p
    have heq : countFin p evs = (evs.filter isFinEv).count (DepEv.fin p) := by
      rw [countFin, List.count_filter (by rfl)]
    rw [heq]
    exact List.nodup_iff_count_le_one.mp hfin1 _
  have hfinMem : ∀ p, DepEv.fin p ∈ evs ↔ countFin p evs = 1 := by
    intro p
    constructor
    · intro hm
      have h1 : 0 < countFin p evs := List.count_pos_iff.mpr hm
      have h2 := hle1 p
      omega
    · intro h
      have h1 : 0 < countFin p evs := by omega
      rw [countFin] at h1
      exact List.count_pos_iff.mp h1
  have henqMem : ∀ p, DepEv.enq p ∈ evs ↔ countEnq p evs ≥ 1 := by
    intro p
    rw [ge_iff_le, Nat.one_le_iff_ne_zero]
    constructor
    · intro hm
      exact Nat.pos_iff_ne_zero.mp (List.count_pos_iff.mpr hm)
    · intro h
      exact List.count_pos_iff.mp (Nat.pos_iff_ne_zero.mpr h)
  rw [DepState.finalizedB]
  simp only [Bool.and_eq_true, decide_eq_true_eq, DepState.dependencyCount,
    hneeds, ge_iff_le]
  rw [nodup_cover_iff _ _ hnd hA hAsub, nodup_cover_iff _ _ hnd hB hBsub]
  constructor
  · rintro ⟨hf, he⟩ p hp
    exact ⟨(henqMem p).mp ((hBmem2 p).mp (he p hp)),
           (hfinMem p).mp ((hAmem2 p hp).mp (hf p hp))⟩
  · intro h
    constructor
    · intro p hp
      exact (hAmem2 p hp).mpr ((hfinMem p).mpr (h p hp).2)
    · intro p hp
      exact (hBmem2 p).mpr ((henqMem p).mpr (h p hp).1)

/-- Witness for C7: a node with two distinct upstreams becomes finalized
after each enqueues once and finalizes once. -/
theorem C7_witness :
    (DepState.runEvs (DepState.init ["u", "w"])
      [DepEv.enq "u", DepEv.enq "w", DepEv.fin "u", DepEv.fin "w"]).finalizedB
      = true := by
  have h := C7_theorem ["u", "w"]
    [DepEv.enq "u", DepEv.enq "w", DepEv.fin "u", DepEv.fin "w"]
    (by decide) (by decide) (by decide)
  exact h.mpr (by decide)

/-! ## Claim C8: key builder round trip -/

/-- Claim C8 as stated requires the default builder to reject parts
containing the separator.  Refuted: `build` (data.py line 71) joins
unconditionally, so a part containing the separator produces a key whose
decomposition differs from the input. -/
theorem C8_counterexample :
    sdkbDecompose ':'
      (sdkbBuild ':' [['a', ':', 'b'], ['c'], ['d']]) ≠
      [['a', ':', 'b'], ['c'], ['d']] := by
  decide

/-- Claim C8 (amended): for the default `StringDelimitedKeyBuilder` and all
legal parts (strings not containing the separator),
`decompose(build(a, b, c)) = (a, b, c)`; the builder does not reject parts
containing the separator — for such parts the round trip can differ. -/
theorem C8_theorem (a b c : List Char)
    (ha : ':' ∉ a) (hb : ':' ∉ b) (hc : ':' ∉ c) :
    sdkbDecompose ':' (sdkbBuild ':' [a, b, c]) = [a, b, c] := by
  refine sdkb_roundtrip ':' [a, b, c] (by simp) ?_
  intro p hp
  simp only [List.mem_cons, List.not_mem_nil, or_false] at hp
  rcases hp with rfl | rfl | rfl
  · exact ha
  · exact hb
  · exact hc

/-- Witness for C8 at concrete separator-free parts. -/
theorem C8_witness :
    sdkbDecompose ':' (sdkbBuild ':' [['x'], ['y'], ['z']]) =
      [['x'], ['y'], ['z']] := by
  exact C8_theorem ['x'] ['y'] ['z'] (by decide) (by decide) (by decide)

/-! ## Claim C9: write visibility before close -/

/-- Claim C9 as stated: for every Database implementation, bytes are never
visible under the key between `write_stream` and a successful close.
Refuted by the in-memory database: `write_stream` registers the fresh
`StringIO` in the dict at once (data.py line 128), so `exists(key)` is
already true, and `read_stream` fails with `AttributeError` (from `len` on
the old-style `StringIO` instance) rather than `KeyError`; the filesystem
database likewise creates the file at `open(path, 'wb')` time, so
`exists(key)` is true before close. -/
theorem C9_counterexample :
    storeHas "k" (memWriteStream "k" []) = true ∧
    memReadStream "k" (memWriteStream "k" []) = .error .attributeError ∧
    fsContains "k" (fsWriteStream "k" []) = true :=
  ⟨rfl, rfl, rfl⟩

theorem storeLookup_storeSet_self (k : String) (e : Entry) (st : Store) :
    storeLookup k (storeSet k e st) = some e := by
  induction st with
  | nil => simp [storeSet, storeLookup]
  | cons kv rest ih =>
      obtain ⟨k2, e2⟩ := kv
      by_cases h : k2 = k
      · simp [storeSet, storeLookup, h]
      · simp [storeSet, storeLookup, h, ih]

theorem lstoreLookup_lstoreSet_self (k : String) (d : Data) (st : LStore) :
    lstoreLookup k (lstoreSet k d st) = some d := by
  induction st with
  | nil => simp [lstoreSet, lstoreLookup]
  | cons kv rest ih =>
      obtain ⟨k2, d2⟩ := kv
      by_cases h : k2 = k
      · simp [lstoreSet, lstoreLookup, h]
      · simp [lstoreSet, lstoreLookup, h, ih]

/-- Claim C9 (amended): only the LMDB write stream defers visibility to a
successful close — it buffers writes without touching the store, and the key
becomes visible at close; the in-memory and filesystem databases register
the key at `write_stream` time, so `exists(key)` is true before close. -/
theorem C9_theorem :
    (∀ (st : Store) (k : String), storeHas k (memWriteStream k st) = true) ∧
    (∀ (st : Store) (k : String), fsContains k (fsWriteStream k st) = true) ∧
    (∀ (st : LStore) (k : String), (lmdbWriteStream k st).2 = st) ∧
    (∀ (st : LStore) (k k2 : String),
      lmdbContains k2 (lmdbWriteStream k st).2 = lmdbContains k2 st) ∧
    (∀ (st : LStore) (k : String) (d : Data),
      lmdbContains k (lmdbClose (lmdbWrite (lmdbWriteStream k st).1 d) st) =
        true) := by
  refine ⟨?_, ?_, fun st k => rfl, fun st k k2 => rfl, ?_⟩
  · intro st k
    rw [memWriteStream, storeHas, storeLookup_storeSet_self]
    rfl
  · intro st k
    rw [fsWriteStream, fsContains, storeHas, storeLookup_storeSet_self]
    rfl
  · intro st k d
    rw [lmdbWriteStream, lmdbWrite, lmdbClose, lmdbContains]
    rw [lstoreLookup_lstoreSet_self]
    rfl

/-! ## Claim C10: None as a control signal -/

/-- Claim C10: `Node.process` with `data=None` performs no `_enqueue` and
records no enqueued dependency (extractor.py lines 132-135), so a `None`
chunk pushed by an upstream is never delivered as data and a call with
`data=None` is indistinguishable from a call with no data — in particular
the call's outcome does not depend on the claimed pusher, and the enqueued
dependency set is unchanged. -/
theorem C10_theorem :
    (∀ (s : DepState) (p : Pusher), s.intake p none = s) ∧
    (∀ (n : GNode) (st : NState) (dbs : Dbs) (p q : Pusher),
      nodeCall n st dbs none p = nodeCall n st dbs none q) ∧
    (∀ (n : GNode) (st : NState) (dbs : Dbs) (p : Pusher),
      (nodeCall n st dbs none p).nst.deps.enqueuedDeps =
        st.deps.enqueuedDeps) := by
  refine ⟨fun s p => rfl, fun n st dbs p q => rfl, ?_⟩
  intro n st dbs p
  obtain ⟨needsN, kindN⟩ := n
  cases hc : st.cache with
  | none =>
      simp only [nodeCall, DepState.intake, hc, finPhase]
      split <;> rfl
  | some inp =>
      cases kindN with
      | writerNode dbId wkey =>
          simp only [nodeCall, DepState.intake, hc, finPhase]
          split <;> rfl
      | pureNode proc last =>
          simp only [nodeCall, DepState.intake, hc]
          cases hr : (proc inp).2 with
          | some e => simp only [hr]
          | none =>
              simp only [hr, finPhase]
              split <;> rfl

/-! ## Claim C2: rollback after a failed process -/

/-- Claim C2 as stated: after `process` raises, the key of every stored
feature is absent from that feature's own associated database.  Refuted: in
model C the stored feature `own` carries its own persistence settings
(database 1), its writer writes there during the run, and a later extractor
exception triggers `_rollback`, which deletes only keys built by the class
`key_builder` from the class `database` (model.py lines 81-83) — so the key
is still present in database 1 when the exception reaches the caller. -/
theorem C2_counterexample :
    ownF.store = true ∧ ownF.persist = some 1 ∧
    (modelProcess 0 "d" featsC [("stream", [9])] emptyDbs 50).1 =
      .error (.userError 7) ∧
    storeHas (composedKey "d" "own" "v")
      ((modelProcess 0 "d" featsC [("stream", [9])] emptyDbs 50).2.dbs 1) =
      true :=
  ⟨rfl, rfl, rfl, rfl⟩

theorem storeLookup_filter_isSome (k : String) (p : String × Entry → Bool)
    (st : Store) (h : (storeLookup k (st.filter p)).isSome = true) :
    (storeLookup k st).isSome = true := by
  induction st with
  | nil => simp [storeLookup] at h
  | cons kv rest ih =>
      obtain ⟨k2, e2⟩ := kv
      by_cases hk : k2 = k
      · simp [storeLookup, hk]
      · rw [List.filter_cons] at h
        simp only [storeLookup, if_neg hk]
        cases hp : p (k2, e2)
        · rw [hp] at h
          exact ih h
        · rw [hp] at h
          simp only [storeLookup, if_neg hk] at h
          exact ih h

theorem storeHas_storeErase_false (k k2 : String) (st : Store)
    (h : storeHas k st = false) :
    storeHas k (storeErase k2 st) = false := by
  cases h2 : storeHas k (storeErase k2 st)
  · rfl
  · have h3 : storeHas k st = true := storeLookup_filter_isSome k _ st h2
    rw [h] at h3
    cases h3

theorem storeLookup_storeErase_self (k : String) (st : Store) :
    storeLookup k (storeErase k st) = none := by
  induction st with
  | nil => rfl
  | cons kv rest ih =>
      obtain ⟨k2, e2⟩ := kv
      by_cases h : k2 = k
      · subst h
        simpa [storeErase, List.filter_cons] using ih
      · simpa [storeErase, List.filter_cons, h, storeLookup] using ih

/-- Rollback never resurrects an absent key in the class database. -/
theorem rollback_keeps_absent (clsDb : Nat) (docId : String) :
    ∀ (features : List MFeature) (dbs : Dbs) (k : String),
      storeHas k (dbs clsDb) = false →
      storeHas k (rollback clsDb docId features dbs clsDb) = false := by
  intro features
  induction features with
  | nil => intro dbs k h; exact h
  | cons f fs ih =>
      intro dbs k h
      rw [rollback, List.foldl_cons]
      by_cases hf : f.store
      · rw [if_pos hf]
        refine ih _ k ?_
        simpa using storeHas_storeErase_false k _ (dbs clsDb) h
      · rw [if_neg hf]
        exact ih dbs k h

/-- After `_rollback`, the class-database key of every stored feature is
absent: the feature's own iteration erases it and later iterations never
re-add. -/
theorem rollback_absent (clsDb : Nat) (docId : String) :
    ∀ (features : List MFeature) (dbs : Dbs) (f : MFeature),
      f ∈ features → f.store = true →
      storeHas (composedKey docId f.key f.version)
        (rollback clsDb docId features dbs clsDb) = false := by
  intro features
  induction features with
  | nil =>
      intro dbs f h
      cases h
  | cons f0 fs ih =>
      intro dbs f hmem hst
      rcases List.mem_cons.mp hmem with rfl | hmem2
      · rw [rollback, List.foldl_cons, if_pos hst]
        refine rollback_keeps_absent clsDb docId fs _ _ ?_
        simp [storeHas, storeLookup_storeErase_self]
      · rw [rollback, List.foldl_cons]
        by_cases hf0 : f0.store
        · rw [if_pos hf0]
          exact ih _ f hmem2 hst
        · rw [if_neg hf0]
          exact ih dbs f hmem2 hst

/-- Claim C2 (amended): if the graph run inside `BaseModel.process` raises,
the same exception is rethrown unchanged, and for every stored feature the
key built by the class `key_builder` is absent from the class `database`
after rollback.  A stored feature carrying its own persistence settings may
keep its key in its own database: `_rollback` only touches the class-level
bundle. -/
theorem C2_theorem (clsDb : Nat) (docId : String) (features : List MFeature)
    (kwargs : List (String × Data)) (dbs0 : Dbs) (fuel : Nat)
    (ps : PruneState) (e : PyExc)
    (hprune : removeDeadNodes (needsFn (buildModelGraph docId clsDb features))
        (featStoreOf features) (buildModelGraph docId clsDb features)
        (initListeners (buildModelGraph docId clsDb features)) fuel = .ok ps)
    (herr : (graphProcess ps.g kwargs dbs0 fuel).2 = some e) :
    (modelProcess clsDb docId features kwargs dbs0 fuel).1 = .error e ∧
    ∀ f ∈ features, f.store = true →
      storeHas (composedKey docId f.key f.version)
        ((modelProcess clsDb docId features kwargs dbs0 fuel).2.dbs clsDb) =
        false := by
  have hm : modelProcess clsDb docId features kwargs dbs0 fuel =
      (.error e,
       { (graphProcess ps.g kwargs dbs0 fuel).1 with
         dbs := rollback clsDb docId features
                  (graphProcess ps.g kwargs dbs0 fuel).1.dbs }) := by
    rw [modelProcess]
    simp only [hprune, herr]
  rw [hm]
  refine ⟨rfl, ?_⟩
  intro f hf hst
  exact rollback_absent clsDb docId features _ f hf hst

def gC : Graph := buildModelGraph "d" 0 featsC

def psC : PruneState :=
  match removeDeadNodes (needsFn gC) (featStoreOf featsC) gC
      (initListeners gC) 50 with
  | .ok ps => ps
  | .error _ => { g := [], listeners := fun _ => [], queue := [] }

/-- Witness for C2 at model C: the extractor exception is rethrown unchanged
and the stored feature `boom`, which uses the class persistence settings,
has no key in the class database after rollback. -/
theorem C2_witness :
    (modelProcess 0 "d" featsC [("stream", [9])] emptyDbs 50).1 =
      .error (.userError 7) ∧
    storeHas (composedKey "d" "boom" "v")
      ((modelProcess 0 "d" featsC [("stream", [9])] emptyDbs 50).2.dbs 0) =
      false := by
  have h := C2_theorem 0 "d" featsC [("stream", [9])] emptyDbs 50 psC
    (.userError 7) rfl rfl
  refine ⟨h.1, h.2 boomF ?_ rfl⟩
  exact List.mem_cons_of_mem _ (List.mem_cons_of_mem _ (List.mem_cons_self _ _))

/-! ## Claim C1: stored keys after a successful process

The claim as stated fails (see the counterexample below); the amended claim
is proved via an invariant of the run: once a data writer has received at
least one chunk, its composed key is present in its bound database — the
in-memory database registers the key at `write_stream` time and no operation
of the run ever removes a key. -/

/-- Claim C1 as stated: for every stored feature, a successful
`BaseModel.process` leaves the composed key in the feature's database.
Refuted: in model B the stored feature `body` has an extractor that emits no
chunk, so its encoder never enqueues, its writer never opens a stream, yet
the run completes successfully — and the key is absent. -/
theorem C1_counterexample :
    bodyB.store = true ∧
    (modelProcess 0 "d" featsB [("stream", [1, 2, 3])] emptyDbs 50).1 =
      .ok "d" ∧
    storeHas (composedKey "d" "body" "v")
      ((modelProcess 0 "d" featsB [("stream", [1, 2, 3])] emptyDbs 50).2.dbs 0)
      = false :=
  ⟨rfl, rfl, rfl⟩

/-- The writer-key invariant: a data writer that has recorded an enqueued
dependency, or has opened its write stream, has its composed key present in
its bound database. -/
def WInv (g : Graph) (s : RState) : Prop :=
  ∀ k n dbId wkey, graphLookup k g = some n → n.kind = .writerNode dbId wkey →
    ((s.states k).deps.enqueuedDeps ≠ [] ∨ (s.states k).wopened = true) →
    storeHas wkey (s.dbs dbId) = true

theorem storeLookup_storeSet_ne (a k : String) (e : Entry) (st : Store)
    (h : a ≠ k) : storeLookup a (storeSet k e st) = storeLookup a st := by
  induction st with
  | nil =>
      simp only [storeSet, storeLookup]
      rw [if_neg (fun hh => h hh.symm)]
  | cons kv rest ih =>
      obtain ⟨k2, e2⟩ := kv
      by_cases hk : k2 = k
      · subst hk
        simp only [storeSet, if_pos rfl, storeLookup]
        rw [if_neg (fun hh => h hh.symm), if_neg (fun hh => h hh.symm)]

      · simp only [storeSet, if_neg hk, storeLookup]
        by_cases hak : k2 = a
        · rw [if_pos hak, if_pos hak]
        · rw [if_neg hak, if_neg hak, ih]

theorem storeHas_storeSet_mono (a k : String) (e : Entry) (st : Store)
    (h : storeHas a st = true) : storeHas a (storeSet k e st) = true := by
  by_cases hak : a = k
  · subst hak
    rw [storeHas, storeLookup_storeSet_self]
    rfl
  · rw [storeHas, storeLookup_storeSet_ne a k e st hak]
    exact h

theorem storeHas_memWrite_mono (a k : String) (d : Data) (st : Store)
    (h : storeHas a st = true) : storeHas a (memWrite k d st) = true := by
  rw [memWrite]
  cases hm : storeLookup k st with
  | none => exact h
  | some e =>
      cases e with
      | pending b => exact storeHas_storeSet_mono a k _ st h
      | committed b => exact h

theorem storeHas_memClose_mono (a k : String) (st : Store)
    (h : storeHas a st = true) : storeHas a (memClose k st) = true := by
  rw [memClose]
  cases hm : storeLookup k st with
  | none => exact h
  | some e =>
      cases e with
      | pending b => exact storeHas_storeSet_mono a k _ st h
      | committed b => exact h

theorem storeHas_writerIngest_mono (a : String) (i dbId : Nat) (wkey : String)
    (opened : Bool) (d : Data) (dbs : Dbs)
    (h : storeHas a (dbs i) = true) :
    storeHas a (writerIngest dbId wkey opened d dbs i) = true := by
  rw [writerIngest]
  by_cases hi : i = dbId
  · rw [if_pos hi]
    cases opened with
    | true => exact storeHas_memWrite_mono a wkey d _ h
    | false =>
        exact storeHas_memWrite_mono a wkey d _
          (storeHas_storeSet_mono a wkey _ _ h)
  · rw [if_neg hi]
    exact h

theorem storeHas_storeSet_self (k : String) (e : Entry) (st : Store) :
    storeHas k (storeSet k e st) = true := by
  rw [storeHas, storeLookup_storeSet_self]
  rfl

theorem storeHas_writerIngest_self (dbId : Nat) (wkey : String)
    (opened : Bool) (d : Data) (dbs : Dbs)
    (h : opened = true → storeHas wkey (dbs dbId) = true) :
    storeHas wkey (writerIngest dbId wkey opened d dbs dbId) = true := by
  rw [writerIngest, if_pos rfl]
  cases opened with
  | true => exact storeHas_memWrite_mono wkey wkey d _ (h rfl)
  | false =>
      simp only [Bool.false_eq_true, if_false]
      rw [memWrite, memWriteStream, storeLookup_storeSet_self]
      exact storeHas_storeSet_self wkey _ _

theorem writerClose_dbs_mono (n : GNode) (st : NState) (dbs : Dbs) (i : Nat)
    (a : String) (h : storeHas a (dbs i) = true) :
    storeHas a ((writerClose n st dbs).2 i) = true := by
  rw [writerClose]
  cases n.kind with
  | pureNode proc last => exact h
  | writerNode dbId wkey =>
      cases hop : (st.wopened && !st.wclosed) with
      | false =>
          simp only [hop]
          exact h
      | true =>
          simp only [hop, if_true]
          show storeHas a (if i = dbId then memClose wkey (dbs i) else dbs i)
            = true
          by_cases hi : i = dbId
          · rw [if_pos hi, hi]
            rw [hi] at h
            exact storeHas_memClose_mono a wkey _ h
          · rw [if_neg hi]
            exact h

theorem writerClose_deps (n : GNode) (st : NState) (dbs : Dbs) :
    (writerClose n st dbs).1.deps = st.deps := by
  rw [writerClose]
  cases n.kind with
  | pureNode proc last => rfl
  | writerNode dbId wkey =>
      cases hop : (st.wopened && !st.wclosed) <;> simp [hop]

theorem writerClose_wopened (n : GNode) (st : NState) (dbs : Dbs) :
    (writerClose n st dbs).1.wopened = st.wopened := by
  rw [writerClose]
  cases n.kind with
  | pureNode proc last => rfl
  | writerNode dbId wkey =>
      cases hop : (st.wopened && !st.wclosed) <;> simp [hop]

theorem finishRecord_enq (d : DepState) (p : Pusher) :
    (d.finishRecord p).enqueuedDeps = d.enqueuedDeps := by
  cases p with
  | none => rfl
  | some k =>
      by_cases h : k ∈ d.needs
      · simp [DepState.finishRecord, h]
      · simp [DepState.finishRecord, h]

theorem setNode_states_self (s : RState) (k : String) (v : NState) (d : Dbs) :
    (setNode s k v d).states k = v := by
  simp [setNode]

theorem setNode_states_ne (s : RState) (k k2 : String) (v : NState) (d : Dbs)
    (h : k2 ≠ k) : (setNode s k v d).states k2 = s.states k2 := by
  simp [setNode, h]

/-- Preservation of the writer-key invariant under a single node update. -/
theorem WInv_setNode (g : Graph) (s : RState) (k : String) (v : NState)
    (d : Dbs)
    (hmono : ∀ i a, storeHas a (s.dbs i) = true → storeHas a (d i) = true)
    (hself : ∀ n dbId wkey, graphLookup k g = some n →
      n.kind = .writerNode dbId wkey →
      (v.deps.enqueuedDeps ≠ [] ∨ v.wopened = true) →
      storeHas wkey (d dbId) = true)
    (hinv : WInv g s) : WInv g (setNode s k v d) := by
  intro k2 n2 dbId wkey hn2 hk2 hante
  by_cases hk2k : k2 = k
  · subst hk2k
    rw [setNode_states_self] at hante
    exact hself n2 dbId wkey hn2 hk2 hante
  · rw [setNode_states_ne s k k2 v d hk2k] at hante
    exact hmono dbId wkey (hinv k2 n2 dbId wkey hn2 hk2 hante)

theorem finPhase_nst (n : GNode) (st : NState) (dbs : Dbs)
    (outSegs : List (List EMsg)) : (finPhase n st dbs outSegs).nst = st := by
  rw [finPhase]
  split <;> rfl

theorem finPhase_dbs (n : GNode) (st : NState) (dbs : Dbs)
    (outSegs : List (List EMsg)) : (finPhase n st dbs outSegs).dbs = dbs := by
  rw [finPhase]
  split <;> rfl

theorem nodeCall_pure_dbs (nd : List String)
    (proc : Data → List (Option Data) × Option PyExc) (last : List Data)
    (st : NState) (dbs : Dbs) (data : Option Data) (p : Pusher) :
    (nodeCall ⟨nd, .pureNode proc last⟩ st dbs data p).dbs = dbs := by
  cases data with
  | some dd => simp only [nodeCall]
               cases hr : (proc dd).2 with
               | some e => simp only [hr]
               | none => simp only [hr, finPhase_dbs]
  | none =>
      cases hc : st.cache with
      | none => simp only [nodeCall, hc, finPhase_dbs]
      | some inp =>
          simp only [nodeCall, hc]
          cases hr : (proc inp).2 with
          | some e => simp only [hr]
          | none => simp only [hr, finPhase_dbs]

theorem nodeCall_writer_dbs_mono (nd : List String) (dbId0 : Nat)
    (wkey0 : String) (st : NState) (dbs : Dbs) (data : Option Data)
    (p : Pusher) (i : Nat) (a : String)
    (h : storeHas a (dbs i) = true) :
    storeHas a ((nodeCall ⟨nd, .writerNode dbId0 wkey0⟩ st dbs data p).dbs i)
      = true := by
  cases data with
  | some dd =>
      simp only [nodeCall, finPhase_dbs]
      exact storeHas_writerIngest_mono a i dbId0 wkey0 _ dd dbs h
  | none =>
      cases hc : st.cache with
      | none =>
          simp only [nodeCall, hc, finPhase_dbs]
          exact h
      | some inp =>
          simp only [nodeCall, hc, finPhase_dbs]
          exact storeHas_writerIngest_mono a i dbId0 wkey0 _ inp dbs h

theorem nodeCall_writer_self (nd : List String) (dbId0 : Nat) (wkey0 : String)
    (st : NState) (dbs : Dbs) (data : Option Data) (p : Pusher)
    (hprior : (st.deps.enqueuedDeps ≠ [] ∨ st.wopened = true) →
      storeHas wkey0 (dbs dbId0) = true)
    (hante : ((nodeCall ⟨nd, .writerNode dbId0 wkey0⟩ st dbs data p).nst.deps.enqueuedDeps ≠ [] ∨
      (nodeCall ⟨nd, .writerNode dbId0 wkey0⟩ st dbs data p).nst.wopened = true)) :
    storeHas wkey0
      ((nodeCall ⟨nd, .writerNode dbId0 wkey0⟩ st dbs data p).dbs dbId0) =
      true := by
  cases data with
  | some dd =>
      simp only [nodeCall, finPhase_dbs]
      exact storeHas_writerIngest_self dbId0 wkey0 _ dd dbs
        (fun hop => hprior (Or.inr hop))
  | none =>
      cases hc : st.cache with
      | none =>
          simp only [nodeCall, hc, finPhase_dbs]
          simp only [nodeCall, hc, finPhase_nst] at hante
          exact hprior (by simpa [DepState.intake] using hante)
      | some inp =>
          simp only [nodeCall, hc, finPhase_dbs]
          exact storeHas_writerIngest_self dbId0 wkey0 _ inp dbs
            (fun hop => hprior (Or.inr hop))

theorem WInv_nodeCall (g : Graph) (s : RState) (k : String) (n : GNode)
    (data : Option Data) (p : Pusher)
    (hn : graphLookup k g = some n) (hinv : WInv g s) :
    WInv g (setNode s k (nodeCall n (s.states k) s.dbs data p).nst
              (nodeCall n (s.states k) s.dbs data p).dbs) := by
  obtain ⟨nd, kd⟩ := n
  cases kd with
  | pureNode proc last =>
      refine WInv_setNode g s k _ _ ?_ ?_ hinv
      · intro i a h
        rw [nodeCall_pure_dbs]
        exact h
      · intro n2 dbId wkey hn2 hk2 hante
        rw [hn] at hn2
        injection hn2 with h2
        rw [← h2] at hk2
        exact NKind.noConfusion hk2
  | writerNode dbId0 wkey0 =>
      refine WInv_setNode g s k _ _ ?_ ?_ hinv
      · intro i a h
        exact nodeCall_writer_dbs_mono nd dbId0 wkey0 _ s.dbs data p i a h
      · intro n2 dbId wkey hn2 hk2 hante
        rw [hn] at hn2
        injection hn2 with h2
        rw [← h2] at hk2
        injection hk2 with hd hw
        subst hd hw
        exact nodeCall_writer_self nd dbId0 wkey0 _ s.dbs data p
          (fun hpr => hinv k _ dbId0 wkey0 hn rfl hpr) hante

theorem WInv_writerCloseSet (g : Graph) (s : RState) (k : String) (n : GNode)
    (hn : graphLookup k g = some n) (hinv : WInv g s) :
    WInv g (setNode s k (writerClose n (s.states k) s.dbs).1
              (writerClose n (s.states k) s.dbs).2) := by
  refine WInv_setNode g s k _ _ ?_ ?_ hinv
  · intro i a h
    exact writerClose_dbs_mono n (s.states k) s.dbs i a h
  · intro n2 dbId wkey hn2 hk2 hante
    rw [hn] at hn2
    injection hn2 with h2
    subst h2
    rw [writerClose_deps, writerClose_wopened] at hante
    exact writerClose_dbs_mono n (s.states k) s.dbs dbId wkey
      (hinv k n dbId wkey hn hk2 hante)

theorem WInv_deliverOne (g : Graph) (sub : String) (env : Envelope)
    (s : RState) (q : List Envelope) (hinv : WInv g s) :
    WInv g (deliverOne g sub env s q).1 := by
  obtain ⟨pu, msg⟩ := env
  rw [deliverOne]
  cases hl : graphLookup sub g with
  | none =>
      simp only [hl]
      exact hinv
  | some n =>
      simp only [hl]
      cases msg with
      | finishMsg =>
          refine WInv_setNode g s sub _ _ ?_ ?_ hinv
          · intro i a h
            exact writerClose_dbs_mono n (s.states sub) s.dbs i a h
          · intro n2 dbId wkey hn2 hk2 hante
            rw [hl] at hn2
            injection hn2 with h2
            subst h2
            rw [finishRecord_enq, writerClose_deps, writerClose_wopened]
              at hante
            exact writerClose_dbs_mono n (s.states sub) s.dbs dbId wkey
              (hinv sub n dbId wkey hl hk2 hante)
      | procMsg data =>
          have h1 := WInv_nodeCall g s sub n data (some pu) hl hinv
          cases herr : (nodeCall n (s.states sub) s.dbs data (some pu)).err with
          | some e =>
              cases e <;> simp only [herr] <;> exact h1
          | none =>
              simp only [herr]
              by_cases hdf :
                  (nodeCall n (s.states sub) s.dbs data (some pu)).doesFinish
              · rw [if_pos hdf]
                have h2 := WInv_writerCloseSet g
                  (setNode s sub
                    (nodeCall n (s.states sub) s.dbs data (some pu)).nst
                    (nodeCall n (s.states sub) s.dbs data (some pu)).dbs)
                  sub n hl h1
                rw [setNode_states_self] at h2
                exact h2
              · rw [if_neg hdf]
                exact h1

theorem WInv_deliverAll (g : Graph) (subs : List String) (env : Envelope)
    (s : RState) (q : List Envelope) (hinv : WInv g s) :
    WInv g (deliverAll g subs env s q).1 := by
  induction subs generalizing s q with
  | nil => exact hinv
  | cons sub rest ih =>
      rw [deliverAll]
      have h1 := WInv_deliverOne g sub env s q hinv
      cases he : (deliverOne g sub env s q).2.2 with
      | some e =>
          simp only [he]
          exact h1
      | none =>
          simp only [he]
          exact ih _ _ h1

theorem WInv_drainLoop (g : Graph) (fuel : Nat) (s : RState)
    (q : List Envelope) (hinv : WInv g s) :
    WInv g (drainLoop g fuel s q).1 := by
  induction fuel generalizing s q with
  | zero => exact hinv
  | succ fuel ih =>
      rw [drainLoop]
      cases hp : drainPopped q with
      | none =>
          simp only [hp]
          exact hinv
      | some env =>
          simp only [hp]
          have h1 := WInv_deliverAll g (subsOf g env.pusher) env s
            (drainRest q) hinv
          cases he : (deliverAll g (subsOf g env.pusher) env s
              (drainRest q)).2.2 with
          | some e =>
              simp only [he]
              exact h1
          | none =>
              simp only [he]
              exact ih _ _ h1

theorem WInv_execAct (g : Graph) (gkey : String) (s : RState)
    (q : List Envelope) (a : RootAct) (hinv : WInv g s) :
    WInv g (execAct g gkey s q a).1 := by
  cases a with
  | pushSeg msgs => exact hinv
  | raiseE e => exact hinv
  | finishAct =>
      rw [execAct]
      cases hl : graphLookup gkey g with
      | none =>
          simp only [hl]
          exact hinv
      | some n =>
          simp only [hl]
          exact WInv_writerCloseSet g s gkey n hl hinv

theorem WInv_advanceGen (g : Graph) (s : RState) (q : List Envelope)
    (rg : RootGen) (hinv : WInv g s) :
    WInv g (advanceGen g s q rg).2.1 := by
  cases rg with
  | mk key phase =>
      cases phase with
      | fresh v =>
          rw [advanceGen]
          cases hl : graphLookup key g with
          | none =>
              simp only [hl]
              exact hinv
          | some n =>
              simp only [hl]
              have h1 := WInv_nodeCall g s key n (some v) none hl hinv
              cases hacts : rootActs
                  (nodeCall n (s.states key) s.dbs (some v) none) with
              | nil =>
                  simp only [hacts]
                  exact h1
              | cons a rest =>
                  simp only [hacts]
                  exact WInv_execAct g key _ q a h1
      | running acts =>
          cases acts with
          | nil => exact hinv
          | cons a rest => exact WInv_execAct g key s q a hinv

theorem WInv_advanceGens (g : Graph) (gens : List RootGen) (s : RState)
    (q : List Envelope) (hinv : WInv g s) :
    WInv g (advanceGens g gens s q).2.1 := by
  induction gens generalizing s q with
  | nil => exact hinv
  | cons rg rest ih =>
      rw [advanceGens]
      have h1 := WInv_advanceGen g s q rg hinv
      cases he : (advanceGen g s q rg).2.2.2 with
      | some e =>
          simp only [he]
          exact h1
      | none =>
          simp only [he]
          exact ih _ _ h1

theorem WInv_processRounds (g : Graph) (fuel : Nat) (gens : List RootGen)
    (s : RState) (hinv : WInv g s) :
    WInv g (processRounds g fuel gens s).1 := by
  induction fuel generalizing gens s with
  | zero => exact hinv
  | succ fuel ih =>
      rw [processRounds]
      by_cases hdone : gens.all RootGen.isDone
      · rw [if_pos hdone]
        exact hinv
      · rw [if_neg hdone]
        have h1 := WInv_advanceGens g gens s [] hinv
        cases he : (advanceGens g gens s []).2.2.2 with
        | some e =>
            simp only [he]
            exact h1
        | none =>
            simp only [he]
            have h2 := WInv_drainLoop g (fuel + 1) (advanceGens g gens s []).2.1
              (advanceGens g gens s []).2.2.1 h1
            cases hd : (drainLoop g (fuel + 1) (advanceGens g gens s []).2.1
                (advanceGens g gens s []).2.2.1).2 with
            | some e =>
                simp only [hd]
                exact h2
            | none =>
                simp only [hd]
                exact ih _ _ h2

theorem WInv_initRState (g : Graph) (dbs0 : Dbs) :
    WInv g (initRState g dbs0) := by
  intro k n dbId wkey hn hk hante
  exfalso
  rcases hante with h | h
  · apply h
    show ((initRState g dbs0).states k).deps.enqueuedDeps = []
    rw [initRState]
    cases hl : graphLookup k g <;> simp [hl, initNState, DepState.init]
  · have h2 : ((initRState g dbs0).states k).wopened = false := by
      rw [initRState]
      cases hl : graphLookup k g <;> simp [hl, initNState]
    rw [h2] at h
    exact Bool.noConfusion h

theorem WInv_graphProcess (g : Graph) (kwargs : List (String × Data))
    (dbs0 : Dbs) (fuel : Nat) :
    WInv g (graphProcess g kwargs dbs0 fuel).1 := by
  simp only [graphProcess]
  by_cases hr : (rootsOf g).any fun kv => (kwargs.lookup kv.1).isNone
  · rw [if_pos hr]
    exact WInv_initRState g dbs0
  · rw [if_neg hr]
    exact WInv_processRounds g fuel _ _ (WInv_initRState g dbs0)

/-- Claim C1 (amended): in a `Graph.process` run over the in-memory
database, if the run completes successfully and the data writer of a stored
feature received at least one chunk (its enqueued-dependency set is
nonempty at the end of the run), then the composed key built from
`(docId, f.key, f.version)` is present in the writer's bound database.
`BaseModel.process` builds exactly such a writer node for every stored
feature, bound to `(feature.persistence or cls).database` and to the
composed key of the class key builder.  (What the counterexample forces:
a stored feature whose extractor emits no chunk for the given input leaves
its writer untouched, so the received-a-chunk hypothesis is necessary.) -/
theorem C1_theorem (g : Graph) (kwargs : List (String × Data)) (dbs0 : Dbs)
    (fuel : Nat) (k : String) (n : GNode) (dbId : Nat) (wkey : String)
    (hn : graphLookup k g = some n) (hk : n.kind = .writerNode dbId wkey)
    (_hok : (graphProcess g kwargs dbs0 fuel).2 = none)
    (henq : ((graphProcess g kwargs dbs0 fuel).1.states k).deps.enqueuedDeps ≠
      []) :
    storeHas wkey ((graphProcess g kwargs dbs0 fuel).1.dbs dbId) = true :=
  WInv_graphProcess g kwargs dbs0 fuel k n dbId wkey hn hk (Or.inl henq)

def gA : Graph := buildModelGraph "d" 0 featsA

def psA : PruneState :=
  match removeDeadNodes (needsFn gA) (featStoreOf featsA) gA
      (initListeners gA) 50 with
  | .ok ps => ps
  | .error _ => { g := [], listeners := fun _ => [], queue := [] }

/-- Witness for C1 at model A: the run succeeds, the writer of the stored
feature `body` received a chunk, and the composed key is present. -/
theorem C1_witness :
    storeHas (composedKey "d" "body" "v")
      ((graphProcess psA.g [("stream", [1, 2, 3])] emptyDbs 50).1.dbs 0) =
      true := by
  exact C1_theorem psA.g [("stream", [1, 2, 3])] emptyDbs 50 "body_writer"
    { needs := ["body_encoder"],
      kind := .writerNode 0 (composedKey "d" "body" "v") } 0
    (composedKey "d" "body" "v") rfl rfl rfl (by decide)

/-! ## Claim C6: dead-node pruning

The invariant argument: (1) every alive node that backs an unstored feature
and is currently a leaf is in the work deque — initially the deque is
exactly the leaves, and whenever a removal turns a node into a leaf, that
node was pushed by the removal step (its needs are extended onto the deque
before the check); (2) the listener lists track aliveness with exact
multiplicity — `disconnect` removes one occurrence per occurrence in
`needs`.  At normal termination the deque is empty, so no unstored-backed
leaf remains; a node whose transitive dependents are all unstored-backed is
then removed entirely, by induction up the (acyclic) listener relation. -/

theorem mem_dropLast_or_eq (q : List String) (x : String)
    (h : q.getLast? = some x) : ∀ k ∈ q, k ∈ q.dropLast ∨ k = x := by
  induction q with
  | nil => cases h
  | cons a q ih =>
      cases q with
      | nil =>
          intro k hk
          simp only [List.getLast?_singleton, Option.some_inj] at h
          simp only [List.mem_singleton] at hk
          right
          rw [hk, h]
      | cons b q2 =>
          intro k hk
          have hlast : (b :: q2).getLast? = some x := by
            rw [← h, List.getLast?_cons_cons]
          rcases List.mem_cons.mp hk with rfl | hk2
          · left
            simp [List.dropLast_cons₂]
          · rcases ih hlast k hk2 with hd | hx
            · left
              simp only [List.dropLast_cons₂, List.mem_cons]
              exact Or.inr hd
            · right
              exact hx

theorem graphLookup_graphErase_self (x : String) (g : Graph) :
    graphLookup x (graphErase x g) = none := by
  induction g with
  | nil => rfl
  | cons kv rest ih =>
      obtain ⟨k2, n2⟩ := kv
      by_cases h : k2 = x
      · simpa [graphErase, List.filter_cons, h] using ih
      · simpa [graphErase, List.filter_cons, h, graphLookup] using ih

theorem graphLookup_graphErase_ne (x m : String) (g : Graph) (h : m ≠ x) :
    graphLookup m (graphErase x g) = graphLookup m g := by
  induction g with
  | nil => rfl
  | cons kv rest ih =>
      obtain ⟨k2, n2⟩ := kv
      simp only [graphErase, ne_eq, decide_not] at ih ⊢
      rw [List.filter_cons]
      by_cases hx : k2 = x
      · subst hx
        have hm : ¬(k2 = m) := fun hh => h hh.symm
        simp [graphLookup, hm, ih]
      · by_cases hm2 : k2 = m
        · simp [graphLookup, hx, hm2, h]
        · simp [graphLookup, hx, hm2, ih]

theorem graphLookup_isSome_mem (k : String) (g : Graph) (n : GNode)
    (h : graphLookup k g = some n) : (k, n) ∈ g := by
  induction g with
  | nil => cases h
  | cons kv rest ih =>
      obtain ⟨k2, n2⟩ := kv
      by_cases hk : k2 = k
      · subst hk
        rw [graphLookup, if_pos rfl] at h
        injection h with h2
        subst h2
        exact List.mem_cons_self _ _
      · rw [graphLookup, if_neg hk] at h
        exact List.mem_cons_of_mem _ (ih h)

theorem graphLookup_isSome_mem_keys (k : String) (g : Graph)
    (h : (graphLookup k g).isSome = true) : k ∈ g.map Prod.fst := by
  cases hl : graphLookup k g with
  | none => rw [hl] at h; cases h
  | some n =>
      exact List.mem_map_of_mem Prod.fst (graphLookup_isSome_mem k g n hl)

theorem graphLookup_none_of_not_mem_keys (k : String) (g : Graph)
    (h : k ∉ g.map Prod.fst) : graphLookup k g = none := by
  cases hl : graphLookup k g with
  | none => rfl
  | some n =>
      exact absurd (graphLookup_isSome_mem_keys k g (by rw [hl]; rfl)) h

theorem removeFirst_count (x : String) (l l2 : List String)
    (h : removeFirst x l = some l2) :
    l2.count x + 1 = l.count x ∧ ∀ m, m ≠ x → l2.count m = l.count m := by
  induction l generalizing l2 with
  | nil => cases h
  | cons y ys ih =>
      rw [removeFirst] at h
      by_cases hy : y = x
      · rw [if_pos hy] at h
        injection h with h2
        subst h2
        subst hy
        constructor
        · simp [List.count_cons]
        · intro m hm
          have hbe : (y == m) = false := by
            rw [beq_eq_false_iff_ne]
            exact fun hh => hm hh.symm
          simp [List.count_cons, hbe]
      · rw [if_neg hy] at h
        cases hrec : removeFirst x ys with
        | none =>
            rw [hrec] at h
            cases h
        | some l3 =>
            rw [hrec] at h
            injection h with h2
            subst h2
            obtain ⟨ihx, ihm⟩ := ih l3 hrec
            constructor
            · simp only [List.count_cons]
              omega
            · intro m hm
              simp only [List.count_cons, ihm m hm]

theorem disconnect_count (x : String) :
    ∀ (l : List String) (ls ls2 : String → List String),
      disconnect x ls l = .ok ls2 →
      (∀ p, p ∉ l → ls2 p = ls p) ∧
      (∀ p, (ls2 p).count x + l.count p = (ls p).count x) ∧
      (∀ p m, m ≠ x → (ls2 p).count m = (ls p).count m) := by
  intro l
  induction l with
  | nil =>
      intro ls ls2 h
      rw [disconnect] at h
      injection h with h2
      subst h2
      exact ⟨fun p _ => rfl, fun p => by simp, fun p m _ => rfl⟩
  | cons e rest ih =>
      intro ls ls2 h
      rw [disconnect] at h
      cases hrf : removeFirst x (ls e) with
      | none =>
          rw [hrf] at h
          cases h
      | some l2 =>
          rw [hrf] at h
          obtain ⟨hskip, hcx, hcm⟩ :=
            ih (fun p => if p = e then l2 else ls p) ls2 h
          obtain ⟨hrx, hrm⟩ := removeFirst_count x (ls e) l2 hrf
          refine ⟨?_, ?_, ?_⟩
          · intro p hp
            have hpe : p ≠ e := fun hh => hp (hh ▸ List.mem_cons_self e rest)
            have hpr : p ∉ rest := fun hh => hp (List.mem_cons_of_mem e hh)
            rw [hskip p hpr, if_neg hpe]
          · intro p
            have h2 := hcx p
            by_cases hpe : p = e
            · rw [if_pos hpe] at h2
              have hbe : (e == p) = true := by
                rw [beq_iff_eq]
                exact hpe.symm
              rw [← hpe] at hrx
              simp only [List.count_cons, hbe]
              simp only [if_true]
              omega
            · rw [if_neg hpe] at h2
              have hbe : (e == p) = false := by
                rw [beq_eq_false_iff_ne]
                exact fun hh => hpe hh.symm
              simp only [List.count_cons, hbe, Bool.false_eq_true, if_false]
              omega
          · intro p m hm
            have h2 := hcm p m hm
            by_cases hpe : p = e
            · rw [if_pos hpe] at h2
              rw [h2]
              have hrm2 := hrm m hm
              rw [← hpe] at hrm2
              exact hrm2
            · rw [if_neg hpe] at h2
              exact h2

/-- The pruning invariant: (1) every alive node that backs an unstored
feature and is a leaf is on the deque; (2) listener lists track aliveness
with exact multiplicity — a dead node no longer occurs in any listener list,
an alive node occurs in `listeners p` once per occurrence of `p` in its
needs. -/
def PruneInv (needsOf : String → List String)
    (featStore : String → Option Bool) (ps : PruneState) : Prop :=
  (∀ k, (graphLookup k ps.g).isSome = true → featStore k = some false →
    ps.listeners k = [] → k ∈ ps.queue) ∧
  (∀ p m, (ps.listeners p).count m =
    if (graphLookup m ps.g).isSome = true then (needsOf m).count p else 0)

theorem pruneIter_inv (needsOf : String → List String)
    (featStore : String → Option Bool) (ps : PruneState) (x : String)
    (ps2 : PruneState)
    (hlast : ps.queue.getLast? = some x)
    (hstep : pruneIter needsOf featStore ps x ps.queue.dropLast = .ok ps2)
    (hinv : PruneInv needsOf featStore ps) :
    PruneInv needsOf featStore ps2 := by
  obtain ⟨h1, h2⟩ := hinv
  rw [pruneIter] at hstep
  cases hfs : featStore x with
  | none =>
      simp only [hfs] at hstep
      injection hstep with hps2
      subst hps2
      constructor
      · intro k hk hfk hlk
        have hkq := h1 k hk hfk hlk
        rcases mem_dropLast_or_eq ps.queue x hlast k hkq with hd | heq
        · exact List.mem_append.mpr (Or.inr hd)
        · rw [heq] at hfk
          rw [hfk] at hfs
          cases hfs
      · exact h2
  | some store =>
      simp only [hfs] at hstep
      by_cases hguard : ((ps.listeners x).isEmpty && !store) = true
      · rw [if_pos hguard] at hstep
        cases hdc : disconnect x ps.listeners (needsOf x) with
        | error e =>
            rw [hdc] at hstep
            cases hstep
        | ok ls2 =>
            simp only [hdc] at hstep
            by_cases halive : (graphLookup x ps.g).isSome = true
            · rw [if_pos halive] at hstep
              injection hstep with hps2
              subst hps2
              obtain ⟨hD1, hD2x, hD2m⟩ :=
                disconnect_count x (needsOf x) ps.listeners ls2 hdc
              constructor
              · intro k hk hfk hlk
                have hkx : k ≠ x := by
                  intro hh
                  rw [hh] at hk
                  rw [graphLookup_graphErase_self] at hk
                  cases hk
                have hkg : (graphLookup k ps.g).isSome = true := by
                  rw [← graphLookup_graphErase_ne x k ps.g hkx]
                  exact hk
                by_cases hkneeds : k ∈ needsOf x
                · exact List.mem_append.mpr
                    (Or.inl (List.mem_reverse.mpr hkneeds))
                · have hls : ps.listeners k = [] := by
                    rw [← hD1 k hkneeds]
                    exact hlk
                  have hq := h1 k hkg hfk hls
                  rcases mem_dropLast_or_eq ps.queue x hlast k hq with hd | heq
                  · exact List.mem_append.mpr (Or.inr hd)
                  · exact absurd heq hkx
              · intro p m
                by_cases hmx : m = x
                · subst hmx
                  rw [graphLookup_graphErase_self]
                  have hx1 := hD2x p
                  have hx2 := h2 p m
                  rw [if_pos halive] at hx2
                  simp only [Option.isSome_none, Bool.false_eq_true, if_false]
                  omega
                · rw [graphLookup_graphErase_ne x m ps.g hmx]
                  rw [hD2m p m hmx]
                  exact h2 p m
            · rw [if_neg halive] at hstep
              cases hstep
      · rw [if_neg hguard] at hstep
        injection hstep with hps2
        subst hps2
        constructor
        · intro k hk hfk hlk
          have hkq := h1 k hk hfk hlk
          rcases mem_dropLast_or_eq ps.queue x hlast k hkq with hd | heq
          · exact List.mem_append.mpr (Or.inr hd)
          · exfalso
            apply hguard
            rw [heq] at hfk hlk
            rw [hfk] at hfs
            injection hfs with hstore
            rw [hlk, ← hstore]
            rfl
        · exact h2

theorem pruneLoop_inv (needsOf : String → List String)
    (featStore : String → Option Bool) :
    ∀ (fuel : Nat) (ps ps2 : PruneState),
      pruneLoop needsOf featStore fuel ps = .ok ps2 →
      PruneInv needsOf featStore ps →
      PruneInv needsOf featStore ps2 ∧ ps2.queue = [] := by
  intro fuel
  induction fuel with
  | zero =>
      intro ps ps2 h hinv
      rw [pruneLoop] at h
      by_cases hq : ps.queue.isEmpty
      · rw [if_pos hq] at h
        injection h with h2
        subst h2
        exact ⟨hinv, List.isEmpty_iff.mp hq⟩
      · rw [if_neg hq] at h
        cases h
  | succ fuel ih =>
      intro ps ps2 h hinv
      rw [pruneLoop] at h
      cases hlast : ps.queue.getLast? with
      | none =>
          simp only [hlast] at h
          injection h with h2
          subst h2
          refine ⟨hinv, ?_⟩
          cases hq : ps.queue with
          | nil => rfl
          | cons a q =>
              rw [hq] at hlast
              rw [List.getLast?_eq_none_iff] at hlast
              cases hlast
      | some x =>
          simp only [hlast] at h
          cases hit : pruneIter needsOf featStore ps x ps.queue.dropLast with
          | error e =>
              simp only [hit] at h
              cases h
          | ok psm =>
              simp only [hit] at h
              exact ih psm ps2 h
                (pruneIter_inv needsOf featStore ps x psm hlast hit hinv)

theorem count_constMap {α : Type} (l : List α) (k m : String) :
    ((l.map fun _ => k).count m) = if k = m then l.length else 0 := by
  induction l with
  | nil => simp
  | cons a l ih =>
      simp only [List.map_cons, List.count_cons, ih]
      by_cases hk : k = m
      · simp [hk]
      · simp [hk]

theorem length_filterEq (l : List String) (p : String) :
    (l.filter fun x => x = p).length = l.count p := by
  induction l with
  | nil => rfl
  | cons a l ih =>
      by_cases hap : a = p
      · subst hap
        simp [List.filter_cons, List.count_cons, ih]
      · simp [List.filter_cons, List.count_cons, hap, ih]

theorem filterEq_map_count (l : List String) (p k m : String) :
    (((l.filter fun x => x = p).map fun _ => k).count m) =
      if k = m then l.count p else 0 := by
  rw [count_constMap, length_filterEq]

theorem initListeners_count (g : Graph) (hnd : (g.map Prod.fst).Nodup)
    (p m : String) :
    (initListeners g p).count m =
      (match graphLookup m g with
       | some n => n.needs.count p
       | none => 0) := by
  induction g with
  | nil => rfl
  | cons kv rest ih =>
      obtain ⟨k, n⟩ := kv
      rw [List.map_cons] at hnd
      have hnd2 : (rest.map Prod.fst).Nodup := hnd.of_cons
      have hknotin : k ∉ rest.map Prod.fst := (List.nodup_cons.mp hnd).1
      have hexp : initListeners ((k, n) :: rest) p =
          ((n.needs.filter fun x => x = p).map fun _ => k) ++
            initListeners rest p := by
        simp [initListeners]
      rw [hexp, List.count_append, ih hnd2, filterEq_map_count]
      by_cases hm : k = m
      · subst hm
        rw [graphLookup, if_pos rfl]
        rw [graphLookup_none_of_not_mem_keys k rest hknotin]
        simp
      · rw [graphLookup, if_neg hm]
        simp [hm]

theorem prune_init_inv (g : Graph) (featStore : String → Option Bool)
    (hnd : (g.map Prod.fst).Nodup) :
    PruneInv (needsFn g) featStore
      { g := g, listeners := initListeners g,
        queue := (g.filter fun kv =>
          (initListeners g kv.1).isEmpty).map Prod.fst } := by
  constructor
  · intro k hk hfk hlk
    cases hl : graphLookup k g with
    | none =>
        rw [hl] at hk
        cases hk
    | some n =>
        have hmem := graphLookup_isSome_mem k g n hl
        refine List.mem_map.mpr ⟨(k, n), ?_, rfl⟩
        refine List.mem_filter.mpr ⟨hmem, ?_⟩
        simp only at hlk ⊢
        rw [hlk]
        rfl
  · intro p m
    have hcount := initListeners_count g hnd p m
    simp only at hcount ⊢
    rw [hcount]
    cases hl : graphLookup m g with
    | none => simp [hl]
    | some n => simp [hl, needsFn]

/-- Transitive dependents along the `needs` relation: `ReachesDown n y x`
holds when `y` transitively needs `x` (so `y` is downstream of `x`). -/
inductive ReachesDown (needsOf : String → List String) : String → String → Prop
  | direct {y x : String} (h : x ∈ needsOf y) : ReachesDown needsOf y x
  | step {y z x : String} (h : z ∈ needsOf y)
      (h2 : ReachesDown needsOf z x) : ReachesDown needsOf y x

theorem reachesDown_trans (needsOf : String → List String) {y m x : String}
    (h1 : ReachesDown needsOf y m) (h2 : ReachesDown needsOf m x) :
    ReachesDown needsOf y x := by
  induction h1 with
  | direct h => exact ReachesDown.step h h2
  | step h hr ih => exact ReachesDown.step h (ih h2)

theorem listener_step (needsOf : String → List String)
    (featStore : String → Option Bool) (ps : PruneState)
    (hinv : PruneInv needsOf featStore ps) (hq : ps.queue = [])
    (x : String) (hx : featStore x = some false)
    (halive : (graphLookup x ps.g).isSome = true) :
    ∃ m, (graphLookup m ps.g).isSome = true ∧ x ∈ needsOf m := by
  obtain ⟨h1, h2⟩ := hinv
  have hne : ps.listeners x ≠ [] := by
    intro hnil
    have hmem := h1 x halive hx hnil
    rw [hq] at hmem
    cases hmem
  obtain ⟨m, hm⟩ := List.exists_mem_of_ne_nil _ hne
  have hc : 0 < (ps.listeners x).count m := List.count_pos_iff.mpr hm
  have hI2 := h2 x m
  by_cases ha : (graphLookup m ps.g).isSome = true
  · rw [if_pos ha] at hI2
    rw [hI2] at hc
    exact ⟨m, ha, List.count_pos_iff.mp hc⟩
  · rw [if_neg ha] at hI2
    rw [hI2] at hc
    exact absurd hc (by omega)

theorem cone_removed (needsOf : String → List String)
    (featStore : String → Option Bool) (ps : PruneState)
    (rank : String → Nat) (N : Nat)
    (hrank : ∀ m q, q ∈ needsOf m → rank q < rank m)
    (hbound : ∀ k, (graphLookup k ps.g).isSome = true → rank k < N)
    (hinv : PruneInv needsOf featStore ps) (hq : ps.queue = []) :
    ∀ x, featStore x = some false →
      (∀ y, ReachesDown needsOf y x → featStore y = some false) →
      (graphLookup x ps.g).isSome = true → False := by
  suffices hs : ∀ (fuel : Nat) (x : String), N - rank x ≤ fuel →
      featStore x = some false →
      (∀ y, ReachesDown needsOf y x → featStore y = some false) →
      (graphLookup x ps.g).isSome = true → False by
    intro x hx hcone halive
    exact hs (N - rank x) x le_rfl hx hcone halive
  intro fuel
  induction fuel with
  | zero =>
      intro x hfuel hx hcone halive
      obtain ⟨m, hma, hmx⟩ := listener_step needsOf featStore ps hinv hq x
        hx halive
      have hr1 := hrank m x hmx
      have hb1 := hbound m hma
      have hb2 := hbound x halive
      omega
  | succ fuel ih =>
      intro x hfuel hx hcone halive
      obtain ⟨m, hma, hmx⟩ := listener_step needsOf featStore ps hinv hq x
        hx halive
      have hmun : featStore m = some false := hcone m (ReachesDown.direct hmx)
      have hmcone : ∀ y, ReachesDown needsOf y m → featStore y = some false :=
        fun y hy =>
          hcone y (reachesDown_trans needsOf hy (ReachesDown.direct hmx))
      have hr1 := hrank m x hmx
      have hb1 := hbound m hma
      exact ih m (by omega) hmun hmcone hma

theorem graphLookup_isSome_of_mem (k : String) (n : GNode) (g : Graph)
    (h : (k, n) ∈ g) : (graphLookup k g).isSome = true := by
  induction g with
  | nil => cases h
  | cons kv rest ih =>
      obtain ⟨k2, n2⟩ := kv
      by_cases hk : k2 = k
      · rw [graphLookup, if_pos hk]
        rfl
      · rw [graphLookup, if_neg hk]
        rcases List.mem_cons.mp h with heq | hmem
        · injection heq with ha hb
          exact absurd ha.symm hk
        · exact ih hmem

theorem not_mem_rootsOf (x : String) (g : Graph)
    (h : graphLookup x g = none) : x ∉ (rootsOf g).map Prod.fst := by
  intro hm
  obtain ⟨⟨k, n⟩, hmem, hk⟩ := List.mem_map.mp hm
  have hing : (k, n) ∈ g := (List.mem_filter.mp hmem).1
  have hs := graphLookup_isSome_of_mem k n g hing
  rw [show k = x from hk, h] at hs
  cases hs

theorem not_mem_subsOf (x : String) (g : Graph) (p : String)
    (h : graphLookup x g = none) : x ∉ subsOf g p := by
  intro hm
  obtain ⟨⟨k, n⟩, hmem, hk⟩ := List.mem_map.mp hm
  have hing : (k, n) ∈ g := (List.mem_filter.mp hmem).1
  have hs := graphLookup_isSome_of_mem k n g hing
  rw [show k = x from hk, h] at hs
  cases hs

/-- Claim C6: dead-node pruning reaches a fixed point.  When
`remove_dead_nodes` returns normally on a graph with distinct keys whose
needs relation is acyclic (witnessed by a rank function), (1) no node
remaining in the graph both is a leaf and backs a feature with
`store=false`; (2) a node backing an unstored feature all of whose
transitive dependents are also unstored-backed is removed entirely; and
consequently (3) such a node is neither a root nor a subscriber of the
pruned graph, which are the only two ways `Graph.process` ever invokes a
node's methods — so its `process` is never invoked during
`BaseModel.process`. -/
theorem C6_theorem (g0 : Graph) (featStore : String → Option Bool)
    (fuel : Nat) (ps : PruneState) (rank : String → Nat) (N : Nat)
    (hnd : (g0.map Prod.fst).Nodup)
    (hrank : ∀ m q, q ∈ needsFn g0 m → rank q < rank m)
    (hbound : ∀ k, (graphLookup k ps.g).isSome = true → rank k < N)
    (hok : removeDeadNodes (needsFn g0) featStore g0 (initListeners g0) fuel
      = .ok ps) :
    (∀ k, (graphLookup k ps.g).isSome = true → featStore k = some false →
      ps.listeners k ≠ []) ∧
    (∀ x, featStore x = some false →
      (∀ y, ReachesDown (needsFn g0) y x → featStore y = some false) →
      graphLookup x ps.g = none) ∧
    (∀ x, graphLookup x ps.g = none →
      x ∉ (rootsOf ps.g).map Prod.fst ∧ ∀ p, x ∉ subsOf ps.g p) := by
  rw [removeDeadNodes] at hok
  have hinit := prune_init_inv g0 featStore hnd
  obtain ⟨hinv, hqe⟩ :=
    pruneLoop_inv (needsFn g0) featStore fuel _ ps hok hinit
  refine ⟨?_, ?_, ?_⟩
  · intro k hk hfk hlk
    obtain ⟨h1, h2⟩ := hinv
    have hq := h1 k hk hfk hlk
    rw [hqe] at hq
    cases hq
  · intro x hx hcone
    cases hl : graphLookup x ps.g with
    | none => rfl
    | some n =>
        exfalso
        refine cone_removed (needsFn g0) featStore ps rank N hrank hbound
          hinv hqe x hx hcone ?_
        rw [hl]
        rfl
  · intro x hx
    exact ⟨not_mem_rootsOf x ps.g hx, fun p => not_mem_subsOf x ps.g p hx⟩

def psE : PruneState :=
  match removeDeadNodes (needsFn gE) (featStoreOf featsE) gE
      (initListeners gE) 50 with
  | .ok ps => ps
  | .error _ => { g := [], listeners := fun _ => [], queue := [] }

/-- A topological rank for the nodes of model E's graph. -/
def rankE : String → Nat :=
  fun k =>
    if k = "stream" then 0
    else if k = "kept_encoder" then 2
    else if k = "kept_writer" then 3
    else 1

theorem rankE_ok : ∀ m q, q ∈ needsFn gE m → rankE q < rankE m := by
  intro m q hq
  cases hl : graphLookup m gE with
  | none =>
      simp only [needsFn, hl] at hq
      cases hq
  | some n =>
      have hsome : (graphLookup m gE).isSome = true := by
        rw [hl]
        rfl
      have hmem := graphLookup_isSome_mem_keys m gE hsome
      rw [show gE.map Prod.fst =
        ["stream", "dead", "kept", "kept_encoder", "kept_writer"] from rfl]
        at hmem
      fin_cases hmem
      · rw [show needsFn gE "stream" = [] from rfl] at hq
        cases hq
      · rw [show needsFn gE "dead" = ["stream"] from rfl,
          List.mem_singleton] at hq
        subst hq
        decide
      · rw [show needsFn gE "kept" = ["stream"] from rfl,
          List.mem_singleton] at hq
        subst hq
        decide
      · rw [show needsFn gE "kept_encoder" = ["kept"] from rfl,
          List.mem_singleton] at hq
        subst hq
        decide
      · rw [show needsFn gE "kept_writer" = ["kept_encoder"] from rfl,
          List.mem_singleton] at hq
        subst hq
        decide

theorem rankE_bound : ∀ k, (graphLookup k psE.g).isSome = true →
    rankE k < 4 := by
  intro k hk
  have hmem := graphLookup_isSome_mem_keys k psE.g hk
  rw [show psE.g.map Prod.fst =
    ["stream", "kept", "kept_encoder", "kept_writer"] from rfl] at hmem
  fin_cases hmem <;> decide

theorem noReachDead_aux :
    ∀ (y x : String), ReachesDown (needsFn gE) y x → x = "dead" → False := by
  intro y x hy
  induction hy with
  | direct h =>
      rename_i y2 x2
      intro hx
      subst hx
      cases hl : graphLookup y2 gE with
      | none =>
          simp only [needsFn, hl] at h
          cases h
      | some n =>
          have hsome : (graphLookup y2 gE).isSome = true := by
            rw [hl]
            rfl
          have hmem := graphLookup_isSome_mem_keys y2 gE hsome
          rw [show gE.map Prod.fst =
            ["stream", "dead", "kept", "kept_encoder", "kept_writer"]
            from rfl] at hmem
          fin_cases hmem <;> revert h <;> decide
  | step h h2 ih => exact ih

theorem noReachDead : ∀ y, ¬ ReachesDown (needsFn gE) y "dead" :=
  fun y hy => noReachDead_aux y "dead" hy rfl

/-- Witness for C6 at model E: the unstored leaf feature `dead`, whose
listener cone is empty, is removed from the graph by pruning. -/
theorem C6_witness : graphLookup "dead" psE.g = none := by
  have h := C6_theorem gE (featStoreOf featsE) 50 psE rankE 4 (by decide)
    rankE_ok rankE_bound rfl
  exact h.2.1 "dead" rfl (fun y hy => absurd hy (noReachDead y))

end Featureflow
